import Mathlib

/-!
Verification of the ZIDS garbled-DFA (GDFA) subsystem.

We give a shallow embedding of the Python sources into Lean: bytes are
`List Nat` (each element a byte value `< 256`), machine integers are `Nat`
with explicit reductions where Python performs them, randomness
(`os.urandom`) is passed in as explicit parameters, and fallible code
returns `Except String`.

Embedded modules:
  * `src/common/utils/encode.py`   (i2osp / os2ip / xor_bytes)
  * SHA-256 and HMAC-SHA256        (Python `hashlib` / `hmac`, used by the code)
  * `src/common/crypto/prf.py`     (`_hkdf_expand`, `prf_msg`, `prf_labeled`)
  * `src/common/crypto/prg.py`     (`_prg_ctr`, `G_bytes`, `G_bits`)
  * `src/common/odfa/params.py`, `packing.py`, `permutation.py`, `matrix.py`
  * `src/server/offline/gdfa_builder.py`
  * `src/server/online/ot_response_builder.py`
  * `src/client/online/gdfa_evaluator.py`, `ot_pad_oracle.py`
  * `src/client/io/gdfa_loader.py`
  * `src/common/ot/base_ot2/ddh_ot.py`, `src/common/ot/ot_1ofm.py`
-/

namespace ZIDS

/-- A byte string is a list of naturals; well-formed ones have entries < 256. -/
abbrev Bytes := List Nat

/-- `int.from_bytes(b, "big")` / `os2ip`: big-endian bytes to integer. -/
def os2ip (b : Bytes) : Nat := b.foldl (fun acc x => acc * 256 + x) 0

/-- `int.to_bytes(length, "big")` / `i2osp`: fixed-length big-endian encoding
(last byte is `x % 256`, the bytes before it encode `x / 256`).
The Python code raises when `x` does not fit; callers below establish the bound. -/
def i2osp (x : Nat) : (length : Nat) → Bytes
  | 0 => []
  | n + 1 => i2osp (x / 256) n ++ [x % 256]

/-- Inline `bytes(a ^ b for a, b in zip(xs, ys))` pattern used across the code. -/
def zipXor (xs ys : Bytes) : Bytes := List.zipWith (fun a b => a ^^^ b) xs ys

/-- `xor_bytes` from `encode.py`: XOR of two equal-length byte strings,
error on length mismatch. -/
def xor_bytes (a b : Bytes) : Except String Bytes :=
  if a.length ≠ b.length then .error "xor_bytes: length mismatch"
  else .ok (zipXor a b)

theorem i2osp_length (x length : Nat) : (i2osp x length).length = length := by
  induction length generalizing x with
  | zero => rfl
  | succ n ih => simp [i2osp, ih]

theorem i2osp_bytes_lt (x length : Nat) :
    ∀ b ∈ i2osp x length, b < 256 := by
  induction length generalizing x with
  | zero => simp [i2osp]
  | succ n ih =>
    intro b hb
    simp only [i2osp, List.mem_append, List.mem_singleton] at hb
    rcases hb with hb | hb
    · exact ih _ _ hb
    · subst hb; exact Nat.mod_lt _ (by omega)

theorem zipXor_length (xs ys : Bytes) :
    (zipXor xs ys).length = min xs.length ys.length := by
  simp [zipXor]

theorem zipXor_self_cancel (xs ys : Bytes) (h : xs.length = ys.length) :
    zipXor (zipXor xs ys) ys = xs := by
  induction xs generalizing ys with
  | nil => simp [zipXor]
  | cons a xs ih =>
    cases ys with
    | nil => simp at h
    | cons b ys =>
      show ((a ^^^ b) ^^^ b) :: zipXor (zipXor xs ys) ys = a :: xs
      rw [Nat.xor_cancel_right, ih ys (by simpa using h)]

theorem zipXor_zero_right (xs : Bytes) (n : Nat) (h : xs.length ≤ n) :
    zipXor xs (List.replicate n 0) = xs := by
  induction xs generalizing n with
  | nil => simp [zipXor]
  | cons a xs ih =>
    cases n with
    | zero => simp at h
    | succ n =>
      show (a ^^^ 0) :: zipXor xs (List.replicate n 0) = a :: xs
      rw [Nat.xor_zero, ih n (by simpa using h)]

theorem os2ip_append_byte (a : Bytes) (d : Nat) :
    os2ip (a ++ [d]) = os2ip a * 256 + d := by
  simp [os2ip, List.foldl_append]

/-- Big-endian decode of a fixed-length encode is the identity, given the bound. -/
theorem os2ip_i2osp (x length : Nat) (h : x < 256 ^ length) :
    os2ip (i2osp x length) = x := by
  induction length generalizing x with
  | zero =>
    have hx : x = 0 := Nat.lt_one_iff.mp (by simpa using h)
    simp [os2ip, i2osp, hx]
  | succ n ih =>
    have hdiv : x / 256 < 256 ^ n := by
      have hx : x < 256 * 256 ^ n := by
        simpa [Nat.pow_succ, Nat.mul_comm] using h
      exact Nat.div_lt_of_lt_mul hx
    calc os2ip (i2osp x (n + 1))
        = os2ip (i2osp (x / 256) n) * 256 + x % 256 := by
          simp [i2osp, os2ip_append_byte]
      _ = x / 256 * 256 + x % 256 := by rw [ih _ hdiv]
      _ = x := by omega

/-! ## SHA-256 and HMAC-SHA256

The Python code computes all keyed derivations through `hmac.new(key, data,
hashlib.sha256)`.  We embed SHA-256 (FIPS 180-4) and HMAC (RFC 2104)
executably over byte lists. -/

/-- Truncate to a 32-bit word. -/
def w32 (x : Nat) : Nat := x % 4294967296

/-- 32-bit right rotation (arguments are words, `n < 32`). -/
def rotr32 (x n : Nat) : Nat := w32 ((x >>> n) ||| (x <<< (32 - n)))

/-- SHA-256 round constants (fractional parts of cube roots of the first
64 primes; written in decimal). -/
def shaK : List Nat := [
  1116352408, 1899447441, 3049323471, 3921009573, 961987163, 1508970993,
  2453635748, 2870763221, 3624381080, 310598401, 607225278, 1426881987,
  1925078388, 2162078206, 2614888103, 3248222580, 3835390401, 4022224774,
  264347078, 604807628, 770255983, 1249150122, 1555081692, 1996064986,
  2554220882, 2821834349, 2952996808, 3210313671, 3336571891, 3584528711,
  113926993, 338241895, 666307205, 773529912, 1294757372, 1396182291,
  1695183700, 1986661051, 2177026350, 2456956037, 2730485921, 2820302411,
  3259730800, 3345764771, 3516065817, 3600352804, 4094571909, 275423344,
  430227734, 506948616, 659060556, 883997877, 958139571, 1322822218,
  1537002063, 1747873779, 1955562222, 2024104815, 2227730452, 2361852424,
  2428436474, 2756734187, 3204031479, 3329325298]

/-- SHA-256 initial hash state (fractional parts of square roots of the
first 8 primes; written in decimal). -/
def shaH0 : List Nat :=
  [1779033703, 3144134277, 1013904242, 2773480762,
   1359893119, 2600822924, 528734635, 1541459225]

/-- FIPS 180-4 message padding: append `0x80`, zeros, and the 64-bit
big-endian bit-length, reaching a multiple of 64 bytes. -/
def shaPad (msg : Bytes) : Bytes :=
  let len := msg.length
  let zeros := (64 - (len + 9) % 64) % 64
  msg ++ [0x80] ++ List.replicate zeros 0 ++ i2osp (8 * len) 8

/-- Big-endian 4-byte group to one word. -/
def word_of_bytes (b : Bytes) : Nat :=
  ((b.getD 0 0) <<< 24) + ((b.getD 1 0) <<< 16) + ((b.getD 2 0) <<< 8) + b.getD 3 0

/-- One word to 4 big-endian bytes. -/
def bytes_of_word (v : Nat) : Bytes :=
  [v >>> 24 % 256, v >>> 16 % 256, v >>> 8 % 256, v % 256]

/-- Message schedule: extend 16 words to 64. -/
def shaSchedule (ws : List Nat) : List Nat :=
  (List.range 48).foldl (fun acc _ =>
    let n := acc.length
    let x15 := acc.getD (n - 15) 0
    let x2 := acc.getD (n - 2) 0
    let s0 := (rotr32 x15 7) ^^^ (rotr32 x15 18) ^^^ (x15 >>> 3)
    let s1 := (rotr32 x2 17) ^^^ (rotr32 x2 19) ^^^ (x2 >>> 10)
    acc ++ [w32 (acc.getD (n - 16) 0 + s0 + acc.getD (n - 7) 0 + s1)]) ws

/-- State of the compression function. -/
structure ShaState where
  a : Nat
  b : Nat
  c : Nat
  d : Nat
  e : Nat
  f : Nat
  g : Nat
  h : Nat

/-- One round of the SHA-256 compression function. -/
def shaRound (st : ShaState) (kw : Nat × Nat) : ShaState :=
  let S1 := (rotr32 st.e 6) ^^^ (rotr32 st.e 11) ^^^ (rotr32 st.e 25)
  let ch := (st.e &&& st.f) ^^^ ((st.e ^^^ 0xffffffff) &&& st.g)
  let t1 := w32 (st.h + S1 + ch + kw.1 + kw.2)
  let S0 := (rotr32 st.a 2) ^^^ (rotr32 st.a 13) ^^^ (rotr32 st.a 22)
  let mj := (st.a &&& st.b) ^^^ (st.a &&& st.c) ^^^ (st.b &&& st.c)
  let t2 := w32 (S0 + mj)
  ⟨w32 (t1 + t2), st.a, st.b, st.c, w32 (st.d + t1), st.e, st.f, st.g⟩

/-- Compress one 64-byte block into the running 8-word hash value. -/
def shaCompress (hv : List Nat) (block : Bytes) : List Nat :=
  let ws := shaSchedule ((List.range 16).map (fun i => word_of_bytes (block.drop (4 * i) |>.take 4)))
  let st0 : ShaState :=
    ⟨hv.getD 0 0, hv.getD 1 0, hv.getD 2 0, hv.getD 3 0, hv.getD 4 0, hv.getD 5 0, hv.getD 6 0, hv.getD 7 0⟩
  let st := (shaK.zip ws).foldl shaRound st0
  [w32 (hv.getD 0 0 + st.a), w32 (hv.getD 1 0 + st.b), w32 (hv.getD 2 0 + st.c),
   w32 (hv.getD 3 0 + st.d), w32 (hv.getD 4 0 + st.e), w32 (hv.getD 5 0 + st.f),
   w32 (hv.getD 6 0 + st.g), w32 (hv.getD 7 0 + st.h)]

/-- SHA-256 of a byte string (32-byte digest). -/
def sha256 (msg : Bytes) : Bytes :=
  let padded := shaPad msg
  let nblocks := padded.length / 64
  let blocks := (List.range nblocks).map (fun i => padded.drop (64 * i) |>.take 64)
  let hv := blocks.foldl shaCompress shaH0
  (bytes_of_word (hv.getD 0 0)) ++ (bytes_of_word (hv.getD 1 0)) ++ (bytes_of_word (hv.getD 2 0)) ++
  (bytes_of_word (hv.getD 3 0)) ++ (bytes_of_word (hv.getD 4 0)) ++ (bytes_of_word (hv.getD 5 0)) ++
  (bytes_of_word (hv.getD 6 0)) ++ (bytes_of_word (hv.getD 7 0))

/-- HMAC-SHA256 (`hmac.new(key, data, hashlib.sha256).digest()`). -/
def hmac_sha256 (key msg : Bytes) : Bytes :=
  let k0 := if 64 < key.length then sha256 key else key
  let kp := k0 ++ List.replicate (64 - k0.length) 0
  let ipadded := kp.map (fun b => b ^^^ 0x36)
  let opadded := kp.map (fun b => b ^^^ 0x5c)
  sha256 (opadded ++ sha256 (ipadded ++ msg))

theorem sha256_length (msg : Bytes) : (sha256 msg).length = 32 := by
  simp [sha256, bytes_of_word]

theorem hmac_sha256_length (key msg : Bytes) :
    (hmac_sha256 key msg).length = 32 := by
  simp [hmac_sha256, sha256_length]

theorem flatten_const_length (L : List Bytes) (c : Nat) (h : ∀ b ∈ L, b.length = c) :
    L.flatten.length = c * L.length := by
  induction L with
  | nil => simp
  | cons x xs ih =>
    simp only [List.flatten_cons, List.length_append, List.length_cons]
    rw [h x (by simp), ih (fun b hb => h b (by simp [hb]))]
    ring

/-! ## `src/common/crypto/prf.py`

`_hkdf_expand(prk, info, out_len)`: chained counter blocks
`T_i = HMAC(prk, T_{i-1} || info || I2OSP(i, 4))`, `T_0 = b""`,
output `T_1 || T_2 || ...` truncated to `out_len`. -/

/-- The chained block sequence of `_hkdf_expand`, concatenated: `t` is the
previous block, `ctr` the next counter value, and the `Nat` argument the
number of remaining loop iterations (`ceil(out_len / 32)` at the top call). -/
def hkdfChain (prk info t : Bytes) (ctr : Nat) : Nat → Bytes
  | 0 => []
  | n + 1 =>
    let t2 := hmac_sha256 prk (t ++ info ++ i2osp ctr 4)
    t2 ++ hkdfChain prk info t2 (ctr + 1) n

/-- `_hkdf_expand` from `prf.py` (total: `out_len` is a `Nat`, and the
`out_len == 0` early return coincides with running zero iterations). -/
def hkdf_expand (prk info : Bytes) (out_len : Nat) : Bytes :=
  (hkdfChain prk info [] 1 ((out_len + 31) / 32)).take out_len

/-- `prf_msg` from `prf.py`: rejects an empty key, otherwise expands. -/
def prf_msg (key info : Bytes) (out_len : Nat) : Except String Bytes :=
  if key.length = 0 then .error "key must be non-empty bytes"
  else .ok (hkdf_expand key info out_len)

/-- `prf_labeled` from `prf.py`: `prf_msg(key, b"PRF|" + label, out_len)`. -/
def prf_labeled (key label : Bytes) (out_len : Nat) : Except String Bytes :=
  prf_msg key ([0x50, 0x52, 0x46, 0x7c] ++ label) out_len

theorem hkdfChain_length (prk info t : Bytes) (ctr n : Nat) :
    (hkdfChain prk info t ctr n).length = 32 * n := by
  induction n generalizing t ctr with
  | zero => rfl
  | succ n ih =>
    simp only [hkdfChain, List.length_append, hmac_sha256_length, ih]
    ring

theorem hkdf_expand_length (prk info : Bytes) (out_len : Nat) :
    (hkdf_expand prk info out_len).length = out_len := by
  simp only [hkdf_expand, List.length_take, hkdfChain_length]
  omega

/-! ## `src/common/crypto/prg.py`

`_prg_ctr(seed, out_len, label)`: independent counter blocks
`block_i = HMAC(seed, b"PRG|" + label + b"|ctr=" + I2OSP(i,4) + b"|len=" + I2OSP(out_len,4))`,
for `i = 1, 2, ...`, concatenated and truncated to `out_len`.  Unlike
`_hkdf_expand` there is no chaining of the previous block. -/

/-- The per-block domain string of `_prg_ctr`. -/
def prgData (label : Bytes) (i out_len : Nat) : Bytes :=
  [0x50, 0x52, 0x47, 0x7c] ++ label ++ [0x7c, 0x63, 0x74, 0x72, 0x3d] ++ i2osp i 4 ++
    [0x7c, 0x6c, 0x65, 0x6e, 0x3d] ++ i2osp out_len 4

/-- `_prg_ctr` from `prg.py` (the while-loop runs `ceil(out_len / 32)` times). -/
def prg_ctr (seed : Bytes) (out_len : Nat) (label : Bytes) : Bytes :=
  (((List.range ((out_len + 31) / 32)).map
      (fun k => hmac_sha256 seed (prgData label (k + 1) out_len))).flatten).take out_len

/-- `G_bytes` from `prg.py`. -/
def G_bytes (seed : Bytes) (out_len : Nat) (label : Bytes) : Bytes :=
  prg_ctr seed out_len label

/-- `G_bits` from `prg.py`: expand to `ceil(out_bits/8)` bytes and zero the
low `(8 - out_bits mod 8) mod 8` bits of the last byte. -/
def G_bits (seed : Bytes) (out_bits : Nat) (label : Bytes) : Bytes :=
  let out_len := (out_bits + 7) / 8
  if out_len = 0 then []
  else
    let buf := prg_ctr seed out_len label
    let r := out_bits % 8
    if r = 0 then buf
    else buf.dropLast ++ [buf.getLast?.getD 0 &&& ((0xFF <<< (8 - r)) &&& 0xFF)]

theorem prg_ctr_length (seed : Bytes) (out_len : Nat) (label : Bytes) :
    (prg_ctr seed out_len label).length = out_len := by
  simp only [prg_ctr, List.length_take]
  rw [flatten_const_length _ 32 (by
    intro b hb
    simp only [List.mem_map] at hb
    obtain ⟨k, _, hk⟩ := hb
    rw [← hk, hmac_sha256_length])]
  simp only [List.length_map, List.length_range]
  omega

theorem G_bits_length (seed : Bytes) (out_bits : Nat) (label : Bytes) :
    (G_bits seed out_bits label).length = (out_bits + 7) / 8 := by
  simp only [G_bits]
  by_cases h0 : (out_bits + 7) / 8 = 0
  · simp [h0]
  · rw [if_neg h0]
    by_cases hr : out_bits % 8 = 0
    · simp [hr, prg_ctr_length]
    · rw [if_neg hr]
      have hlen : (prg_ctr seed ((out_bits + 7) / 8) label).length = (out_bits + 7) / 8 :=
        prg_ctr_length _ _ _
      simp only [List.length_append, List.length_dropLast, hlen, List.length_singleton]
      omega

/-! ## `src/common/odfa/params.py` and `packing.py` -/

/-- Python `int.bit_length()` (fuel-based so the kernel can evaluate it). -/
def bitLenAux : Nat → Nat → Nat
  | 0, _ => 0
  | fuel + 1, n => if n = 0 then 0 else bitLenAux fuel (n / 2) + 1

/-- `n.bit_length()`. -/
def bit_length (n : Nat) : Nat := bitLenAux n n

theorem bitLenAux_spec (fuel n : Nat) (h : n ≤ fuel) : n < 2 ^ bitLenAux fuel n := by
  induction fuel generalizing n with
  | zero => simpa [bitLenAux] using h
  | succ fuel ih =>
    by_cases hn : n = 0
    · simp [bitLenAux, hn]
    · have hdiv : n / 2 ≤ fuel := by omega
      have := ih (n / 2) hdiv
      simp only [bitLenAux, if_neg hn, pow_succ]
      omega

theorem lt_two_pow_bit_length (n : Nat) : n < 2 ^ bit_length n :=
  bitLenAux_spec n n (Nat.le_refl n)

/-- `SecurityParams` from `params.py`. -/
structure SecurityParams where
  k_bits : Nat := 128
  kprime_bits : Nat := 128
  kappa : Nat := 128
  alphabet_size : Nat := 256

/-- `SecurityParams.sanity_check` (the raise conditions, as a predicate). -/
def SecurityParams.sane (sec : SecurityParams) : Prop :=
  0 < sec.k_bits ∧ 0 < sec.kprime_bits ∧ 0 < sec.kappa ∧ 0 < sec.alphabet_size ∧
    sec.k_bits % 8 = 0 ∧ sec.kprime_bits % 8 = 0

instance (sec : SecurityParams) : Decidable sec.sane := by
  unfold SecurityParams.sane; infer_instance

/-- `_bytes_for_bits` / `k_bytes` property. -/
def SecurityParams.k_bytes (sec : SecurityParams) : Nat := (sec.k_bits + 7) / 8

def SecurityParams.kprime_bytes (sec : SecurityParams) : Nat := (sec.kprime_bits + 7) / 8

/-- `SparsityParams` from `params.py`. -/
structure SparsityParams where
  outmax : Nat
  cmax : Nat

def SparsityParams.sane (sp : SparsityParams) (alphabet_size : Nat) : Prop :=
  0 < sp.outmax ∧ 0 < sp.cmax ∧ sp.cmax ≤ alphabet_size

instance (sp : SparsityParams) (a : Nat) : Decidable (sp.sane a) := by
  unfold SparsityParams.sane; infer_instance

/-- `PackingParams` from `params.py`. -/
structure PackingParams where
  k_bytes : Nat
  kprime_bytes : Nat
  alphabet_size : Nat
  outmax : Nat
  cmax : Nat
  ot256_entry_len_bytes : Nat
  gdfa_cell_pad_bits : Nat

/-- `make_packing` (the sanity checks are carried as hypotheses by the
theorems that use it). -/
def make_packing (sec : SecurityParams) (sp : SparsityParams) : PackingParams where
  k_bytes := sec.k_bytes
  kprime_bytes := sec.kprime_bytes
  alphabet_size := sec.alphabet_size
  outmax := sp.outmax
  cmax := sp.cmax
  ot256_entry_len_bytes := sp.cmax * sec.kprime_bytes
  gdfa_cell_pad_bits := sp.outmax * sec.kprime_bits

/-- `CellFormat` from `packing.py` (shared by the evaluator's copy). -/
structure CellFormat where
  ns_bits : Nat
  aid_bits : Nat
  pad_bits : Nat
deriving DecidableEq

def CellFormat.total_bits (fmt : CellFormat) : Nat :=
  fmt.ns_bits + fmt.aid_bits + fmt.pad_bits

def CellFormat.total_bytes (fmt : CellFormat) : Nat := (fmt.total_bits + 7) / 8

/-- `plan_cell_format` from `packing.py`; the raise conditions
(`num_states ≤ 0`, `aid_bits ≤ 0`, `ns_bits + aid_bits > gdfa_cell_pad_bits`)
are hypotheses of the theorems below. -/
def plan_cell_format (num_states : Nat) (gdfa_cell_pad_bits aid_bits : Nat) : CellFormat where
  ns_bits := max 1 (bit_length (num_states - 1))
  aid_bits := aid_bits
  pad_bits := gdfa_cell_pad_bits - (max 1 (bit_length (num_states - 1)) + aid_bits)

theorem num_states_le_two_pow_ns_bits (n : Nat) (hn : 0 < n) :
    n ≤ 2 ^ max 1 (bit_length (n - 1)) := by
  have h1 : n - 1 < 2 ^ bit_length (n - 1) := lt_two_pow_bit_length (n - 1)
  have h2 : (2 : Nat) ^ bit_length (n - 1) ≤ 2 ^ max 1 (bit_length (n - 1)) :=
    Nat.pow_le_pow_right (by omega) (le_max_right _ _)
  omega

/-! ## `src/common/odfa/permutation.py` -/

/-- `is_perm` from `permutation.py`: `perm` has length `n`, entries in
`[0, n)`, no duplicates. -/
def is_perm (perm : List Nat) (n : Nat) : Prop :=
  perm.length = n ∧ (∀ v ∈ perm, v < n) ∧ perm.Nodup

instance (perm : List Nat) (n : Nat) : Decidable (is_perm perm n) := by
  unfold is_perm; infer_instance

/-- The write loop of `inverse_perm`: `inv[v] = i` for each `(i, v)`. -/
def invPermWrites (ps : List (Nat × Nat)) (inv : List Nat) : List Nat :=
  ps.foldl (fun a p => a.set p.2 p.1) inv

/-- `inverse_perm` from `permutation.py` (raises on an out-of-range entry). -/
def inverse_perm (perm : List Nat) : Except String (List Nat) :=
  if ∀ v ∈ perm, v < perm.length then .ok (invPermWrites perm.enum (List.replicate perm.length 0))
  else .error "perm contains out-of-range value"

theorem invPermWrites_length (ps : List (Nat × Nat)) (inv : List Nat) :
    (invPermWrites ps inv).length = inv.length := by
  induction ps generalizing inv with
  | nil => rfl
  | cons p ps ih =>
    show (invPermWrites ps (inv.set p.2 p.1)).length = inv.length
    rw [ih, List.length_set]

theorem invPermWrites_untouched (ps : List (Nat × Nat)) (inv : List Nat) (v : Nat)
    (h : v ∉ ps.map Prod.snd) : (invPermWrites ps inv).getD v 0 = inv.getD v 0 := by
  induction ps generalizing inv with
  | nil => rfl
  | cons p ps ih =>
    simp only [List.map_cons, List.mem_cons, not_or] at h
    show (invPermWrites ps (inv.set p.2 p.1)).getD v 0 = inv.getD v 0
    rw [ih _ h.2, List.getD_eq_getElem?_getD, List.getD_eq_getElem?_getD,
      List.getElem?_set_ne (fun hne => h.1 hne.symm)]

theorem invPermWrites_getD (ps : List (Nat × Nat)) (inv : List Nat)
    (hnodup : (ps.map Prod.snd).Nodup) (i v : Nat) (hmem : (i, v) ∈ ps)
    (hv : v < inv.length) : (invPermWrites ps inv).getD v 0 = i := by
  induction ps generalizing inv with
  | nil => simp at hmem
  | cons p ps ih =>
    simp only [List.map_cons, List.nodup_cons] at hnodup
    rcases List.mem_cons.mp hmem with heq | htail
    · subst heq
      show (invPermWrites ps (inv.set v i)).getD v 0 = i
      rw [invPermWrites_untouched _ _ _ hnodup.1]
      rw [List.getD_eq_getElem?_getD, List.getElem?_set_eq_of_lt _ (by simpa using hv)]
      rfl
    · exact ih _ hnodup.2 htail (by simpa using hv)

theorem invPermWrites_entry_lt (ps : List (Nat × Nat)) (inv : List Nat) (n : Nat)
    (hps : ∀ p ∈ ps, p.1 < n) (hinv : ∀ x ∈ inv, x < n) :
    ∀ x ∈ invPermWrites ps inv, x < n := by
  induction ps generalizing inv with
  | nil => exact hinv
  | cons p ps ih =>
    refine ih _ (fun q hq => hps q (by simp [hq])) ?_
    intro x hx
    rcases List.mem_or_eq_of_mem_set hx with hold | hnew
    · exact hinv x hold
    · subst hnew; exact hps p (by simp)

/-- Every value below `n` occurs in a duplicate-free list of length `n`
whose entries are below `n`. -/
theorem perm_surjective (perm : List Nat) (n : Nat) (hp : is_perm perm n)
    (v : Nat) (hv : v < n) : v ∈ perm := by
  obtain ⟨hlen, hmem, hnodup⟩ := hp
  have hsub : perm.toFinset ⊆ Finset.range n := by
    intro x hx
    exact Finset.mem_range.mpr (hmem x (List.mem_toFinset.mp hx))
  have hcard : (Finset.range n).card ≤ perm.toFinset.card := by
    rw [Finset.card_range, List.toFinset_card_of_nodup hnodup, hlen]
  have : perm.toFinset = Finset.range n := Finset.eq_of_subset_of_card_le hsub hcard
  have : v ∈ perm.toFinset := this ▸ Finset.mem_range.mpr hv
  exact List.mem_toFinset.mp this

/-! ## `src/common/odfa/matrix.py`

`next_state` and `attack_id` are modelled as `Nat`: the claims below only
concern values that already passed the code's runtime range checks
(`ensure_index`, `attack_id >= 0`); `group_id` may be `-1` on dummy edges
and is an `Int`. -/

structure ODFAEdge where
  group_id : Int
  next_state : Nat
  attack_id : Nat := 0
deriving DecidableEq

abbrev ODFARow := List ODFAEdge

structure ODFA where
  num_states : Nat
  start_state : Nat
  accepting : List (Nat × Nat)
  rows : List ODFARow

/-- `ODFA.sanity_check(outmax)`: the conjunction of the checks the method
performs (it raises if any fails; `attack_id >= 0` holds by typing). -/
def ODFA.sanity (odfa : ODFA) (outmax : Nat) : Prop :=
  0 < odfa.num_states ∧ odfa.start_state < odfa.num_states ∧
    odfa.rows.length = odfa.num_states ∧
    ∀ row ∈ odfa.rows, row.length ≤ outmax ∧ ∀ e ∈ row, e.next_state < odfa.num_states

instance (odfa : ODFA) (outmax : Nat) : Decidable (odfa.sanity outmax) := by
  unfold ODFA.sanity; infer_instance

/-- The dummy padding edge `(group_id = -1, next_state = 0, attack_id = 0)`. -/
def dummyEdge : ODFAEdge := ⟨-1, 0, 0⟩

/-- `pad_row_to_outmax` from `matrix.py`: copy the row and append dummy
edges up to `outmax`; raises if the row is over-long.  The returned row is
a fresh list (the input is not modified). -/
def pad_row_to_outmax (row : ODFARow) (outmax : Nat) : Except String ODFARow :=
  if outmax < row.length then .error "row has more edges than outmax"
  else .ok (row ++ List.replicate (outmax - row.length) dummyEdge)

theorem pad_row_to_outmax_ok (row : ODFARow) (outmax : Nat) (h : row.length ≤ outmax) :
    pad_row_to_outmax row outmax = .ok (row ++ List.replicate (outmax - row.length) dummyEdge) := by
  simp [pad_row_to_outmax, Nat.not_lt.mpr h]

theorem pad_row_length (row : ODFARow) (outmax : Nat) (h : row.length ≤ outmax) :
    (row ++ List.replicate (outmax - row.length) dummyEdge).length = outmax := by
  simp only [List.length_append, List.length_replicate]
  omega

/-! ## `src/server/offline/gdfa_builder.py` -/

/-- `_pack_bits`: pack `(ns, aid)` MSB-first into `fmt.total_bytes` bytes
with zero padding bits; raises when a field is out of range. -/
def pack_bits (ns aid : Nat) (fmt : CellFormat) : Except String Bytes :=
  if 2 ^ fmt.ns_bits ≤ ns then .error "next_state index out of range for ns_bits"
  else if 2 ^ fmt.aid_bits ≤ aid then .error "attack_id out of range for aid_bits"
  else .ok (i2osp (((ns <<< fmt.aid_bits) ||| aid) <<< fmt.pad_bits) fmt.total_bytes)

structure GDFAPublicHeader where
  alphabet_size : Nat
  outmax : Nat
  cmax : Nat
  num_states : Nat
  start_row : Nat
  permutation : List Nat
  cell_bytes : Nat
  row_bytes : Nat
  aid_bits : Nat
deriving DecidableEq

structure GDFASecrets where
  pad_seeds : List (List Bytes)
  inv_permutation : List Nat

/-- The PRG label `b"PRG|GDFA|cell"`. -/
def gdfaCellLabel : Bytes := [0x50, 0x52, 0x47, 0x7c, 0x47, 0x44, 0x46, 0x41, 0x7c, 0x63, 0x65, 0x6c, 0x6c]

/-- Encrypt one cell of a padded row (`_row_iter`'s inner loop body):
plaintext is `_pack_bits(inv_perm[edge.next_state], edge.attack_id, fmt)`,
pad is `G_bits(seed, pad_bits_total, b"PRG|GDFA|cell")`, cell is their XOR. -/
def encCell (fmt : CellFormat) (gdfa_cell_pad_bits : Nat) (inv_perm : List Nat)
    (seed : Bytes) (edge : ODFAEdge) : Except String Bytes :=
  (pack_bits (inv_perm.getD edge.next_state 0) edge.attack_id fmt).map
    (fun pt => zipXor pt (G_bits seed gdfa_cell_pad_bits gdfaCellLabel))

/-- One iteration of `_row_iter`: pad the ODFA row at `perm[new_row]` to
`outmax`, encrypt each cell with the row's seeds, concatenate. -/
def buildRow (odfa : ODFA) (outmax : Nat) (fmt : CellFormat) (gdfa_cell_pad_bits : Nat)
    (perm inv_perm : List Nat) (pad_seeds : List (List Bytes)) (new_row : Nat) :
    Except String Bytes := do
  let old_state := perm.getD new_row 0
  let padded ← pad_row_to_outmax (odfa.rows.getD old_state []) outmax
  let cells ← padded.enum.mapM (fun ce =>
    encCell fmt gdfa_cell_pad_bits inv_perm ((pad_seeds.getD new_row []).getD ce.1 []) ce.2)
  pure cells.flatten

/-- `build_gdfa_stream`, with the sampled randomness passed in explicitly:
`perm` is the Fisher–Yates output (`sample_perm`), `pad_seeds` the
per-row/per-column seeds (`os.urandom(k_bytes)` resp. `pad_seed_fn`).
Returns the public header, secrets, and the per-row stream results. -/
def build_gdfa_stream (odfa : ODFA) (sec : SecurityParams) (sp : SparsityParams)
    (aid_bits : Nat) (perm : List Nat) (pad_seeds : List (List Bytes)) :
    GDFAPublicHeader × GDFASecrets × List (Except String Bytes) :=
  let pack := make_packing sec sp
  let fmt := plan_cell_format odfa.num_states pack.gdfa_cell_pad_bits aid_bits
  let cell_bytes := fmt.total_bytes
  let row_bytes := sp.outmax * cell_bytes
  let inv_perm := (inverse_perm perm).toOption.getD []
  let start_row := inv_perm.getD odfa.start_state 0
  let pub : GDFAPublicHeader :=
    ⟨sec.alphabet_size, sp.outmax, sp.cmax, odfa.num_states, start_row, perm,
      cell_bytes, row_bytes, aid_bits⟩
  let secrets : GDFASecrets := ⟨pad_seeds, inv_perm⟩
  let rows := (List.range odfa.num_states).map
    (buildRow odfa sp.outmax fmt pack.gdfa_cell_pad_bits perm inv_perm pad_seeds)
  (pub, secrets, rows)

/-! ### Support lemmas for the builder -/

theorem mapM_ok_of_forall {α β : Type} (l : List α) (f : α → Except String β) (g : α → β)
    (h : ∀ x ∈ l, f x = .ok (g x)) : l.mapM f = .ok (l.map g) := by
  induction l with
  | nil => rfl
  | cons x xs ih =>
    rw [List.mapM_cons, h x (by simp)]
    rw [ih (fun y hy => h y (by simp [hy]))]
    rfl

theorem flatten_drop_take (L : List Bytes) (m : Nat) (hm : ∀ b ∈ L, b.length = m) :
    ∀ c, c < L.length → (L.flatten.drop (c * m)).take m = L.getD c [] := by
  induction L with
  | nil => intro c hc; simp at hc
  | cons b rest ih =>
    intro c hc
    cases c with
    | zero =>
      have hb : b.length = m := hm b (by simp)
      simp only [Nat.zero_mul, List.drop_zero, List.flatten_cons, List.getD_cons_zero]
      exact List.take_left' hb
    | succ c =>
      have hb : b.length = m := hm b (by simp)
      have hstep : (c + 1) * m = b.length + c * m := by rw [hb]; ring
      simp only [List.flatten_cons, List.getD_cons_succ, hstep]
      rw [← List.drop_drop, List.drop_left]
      exact ih (fun x hx => hm x (by simp [hx])) c (by simpa using hc)

theorem pack_bits_ok (ns aid : Nat) (fmt : CellFormat) (hns : ns < 2 ^ fmt.ns_bits)
    (haid : aid < 2 ^ fmt.aid_bits) :
    pack_bits ns aid fmt =
      .ok (i2osp ((ns * 2 ^ fmt.aid_bits + aid) * 2 ^ fmt.pad_bits) fmt.total_bytes) := by
  have hval : ((ns <<< fmt.aid_bits) ||| aid) <<< fmt.pad_bits =
      (ns * 2 ^ fmt.aid_bits + aid) * 2 ^ fmt.pad_bits := by
    rw [Nat.shiftLeft_eq, Nat.shiftLeft_eq, Nat.mul_comm ns (2 ^ fmt.aid_bits),
      ← Nat.mul_add_lt_is_or haid, Nat.mul_comm (2 ^ fmt.aid_bits) ns]
  simp [pack_bits, Nat.not_le.mpr hns, Nat.not_le.mpr haid, hval]

theorem packed_fields (ns aid nb ab pb : Nat) (hns : ns < 2 ^ nb) (haid : aid < 2 ^ ab) :
    (ns * 2 ^ ab + aid) * 2 ^ pb % 2 ^ pb = 0 ∧
      (ns * 2 ^ ab + aid) * 2 ^ pb / 2 ^ pb % 2 ^ ab = aid ∧
      (ns * 2 ^ ab + aid) * 2 ^ pb / 2 ^ pb / 2 ^ ab = ns ∧
      (ns * 2 ^ ab + aid) * 2 ^ pb < 2 ^ (nb + ab + pb) := by
  have hpb : 0 < 2 ^ pb := Nat.pos_pow_of_pos pb (by omega)
  have hdiv : (ns * 2 ^ ab + aid) * 2 ^ pb / 2 ^ pb = ns * 2 ^ ab + aid :=
    Nat.mul_div_cancel _ hpb
  refine ⟨Nat.mul_mod_left _ _, ?_, ?_, ?_⟩
  · rw [hdiv, Nat.mul_comm ns (2 ^ ab), Nat.mul_add_mod, Nat.mod_eq_of_lt haid]
  · rw [hdiv, Nat.mul_comm ns (2 ^ ab),
      Nat.mul_add_div (Nat.pos_pow_of_pos ab (by omega)),
      Nat.div_eq_of_lt haid, Nat.add_zero]
  · have h1 : ns * 2 ^ ab + aid < 2 ^ (nb + ab) := by
      have : ns * 2 ^ ab + aid < (ns + 1) * 2 ^ ab := by
        rw [Nat.succ_mul]; omega
      calc ns * 2 ^ ab + aid < (ns + 1) * 2 ^ ab := this
        _ ≤ 2 ^ nb * 2 ^ ab := Nat.mul_le_mul_right _ (by omega)
        _ = 2 ^ (nb + ab) := (Nat.pow_add 2 nb ab).symm
    calc (ns * 2 ^ ab + aid) * 2 ^ pb < 2 ^ (nb + ab) * 2 ^ pb :=
          (Nat.mul_lt_mul_right hpb).mpr h1
      _ = 2 ^ (nb + ab + pb) := (Nat.pow_add 2 (nb + ab) pb).symm

theorem plan_total_bits (n padbits ab : Nat)
    (h : max 1 (bit_length (n - 1)) + ab ≤ padbits) :
    (plan_cell_format n padbits ab).total_bits = padbits := by
  simp only [plan_cell_format, CellFormat.total_bits]
  omega

theorem inverse_perm_ok (perm : List Nat) (n : Nat) (hp : is_perm perm n) :
    inverse_perm perm = .ok (invPermWrites perm.enum (List.replicate n 0)) := by
  obtain ⟨hlen, hmem, -⟩ := hp
  subst hlen
  simp only [inverse_perm, if_pos hmem]

theorem invPermWrites_of_perm_length (perm : List Nat) (n : Nat) (hp : is_perm perm n) :
    (invPermWrites perm.enum (List.replicate n 0)).length = n := by
  rw [invPermWrites_length, List.length_replicate]

theorem invPermWrites_of_perm_entry_lt (perm : List Nat) (n : Nat) (hp : is_perm perm n)
    (hn : 0 < n) : ∀ x ∈ invPermWrites perm.enum (List.replicate n 0), x < n := by
  refine invPermWrites_entry_lt _ _ _ ?_ ?_
  · rintro ⟨i, v⟩ hpmem
    have h1 : perm.get? i = some v := List.mk_mem_enum_iff_get?.mp hpmem
    have h2 : i < perm.length := List.get?_eq_some.mp h1 |>.1
    exact hp.1 ▸ h2
  · intro x hx
    rw [List.eq_of_mem_replicate hx]
    exact hn

theorem getD_mem_of_lt {α : Type} (l : List α) (i : Nat) (d : α) (h : i < l.length) :
    l.getD i d ∈ l := by
  rw [List.getD_eq_getElem?_getD, List.getElem?_eq_getElem h]
  exact List.getElem_mem h

theorem getD_eq_getElem_of_lt {α : Type} (l : List α) (i : Nat) (d : α) (h : i < l.length) :
    l.getD i d = l[i] := by
  rw [List.getD_eq_getElem?_getD, List.getElem?_eq_getElem h]
  rfl

theorem getD_map_range {α : Type} (f : Nat → α) (n i : Nat) (d : α) (h : i < n) :
    ((List.range n).map f).getD i d = f i := by
  have hi : i < ((List.range n).map f).length := by simpa using h
  rw [getD_eq_getElem_of_lt _ _ _ hi, List.getElem_map, List.getElem_range]

theorem snd_mem_of_mem_enum {α : Type} {l : List α} {p : Nat × α} (h : p ∈ l.enum) :
    p.2 ∈ l := by
  obtain ⟨i, v⟩ := p
  have h1 : l[i]? = some v := List.mk_mem_enum_iff_getElem?.mp h
  obtain ⟨hlt, hval⟩ := List.getElem?_eq_some.mp h1
  exact hval ▸ List.getElem_mem hlt

theorem enum_getD (l : List ODFAEdge) (c : Nat) (hc : c < l.length) :
    l.enum.getD c (0, dummyEdge) = (c, l.getD c dummyEdge) := by
  have hce : c < l.enum.length := by
    simpa [List.enum_eq_enumFrom, List.enumFrom_length] using hc
  rw [getD_eq_getElem_of_lt _ _ _ hce, getD_eq_getElem_of_lt _ _ _ hc]
  simp [List.enum_eq_enumFrom, List.getElem_enumFrom]

/-- **C1.**  For every ODFA accepted by `ODFA.sanity_check` whose edges all
have `attack_id < 2^aid_bits`, byte-aligned security/sparsity parameters, a
cell format that fits, and any sampled permutation and pad seeds: every row
emitted by `build_gdfa_stream` is `.ok` and has exactly
`outmax * cell_bytes` bytes, and XORing the `c`-th ciphertext cell with
`G_bits(secrets.pad_seeds[new_row][c], gdfa_cell_pad_bits, b"PRG|GDFA|cell")`
yields a plaintext whose low `pad_bits` are zero, whose `aid` field equals
`edge.attack_id` and whose `ns` field equals
`inv_permutation[edge.next_state]` (a value in `[0, num_states)`) for the
`c`-th edge of the padded row — dummy cells included, which decode to
`ns = inv_permutation[0]`, `aid = 0`. -/
theorem c1_build_gdfa_rows_decrypt
    (odfa : ODFA) (sec : SecurityParams) (sp : SparsityParams) (aid_bits : Nat)
    (perm : List Nat) (pad_seeds : List (List Bytes))
    (hsec : sec.sane) (hsp : sp.sane sec.alphabet_size)
    (hodfa : odfa.sanity sp.outmax) (haid_pos : 0 < aid_bits)
    (hfit : max 1 (bit_length (odfa.num_states - 1)) + aid_bits ≤ sp.outmax * sec.kprime_bits)
    (haid : ∀ row ∈ odfa.rows, ∀ e ∈ row, e.attack_id < 2 ^ aid_bits)
    (hperm : is_perm perm odfa.num_states)
    (new_row : Nat) (hrow : new_row < odfa.num_states) :
    ∃ row : Bytes,
      (build_gdfa_stream odfa sec sp aid_bits perm pad_seeds).2.2.getD new_row (.error "") = .ok row
      ∧ row.length = sp.outmax * (build_gdfa_stream odfa sec sp aid_bits perm pad_seeds).1.cell_bytes
      ∧ ∀ c, c < sp.outmax → ∀ fmt edge pt,
          fmt = plan_cell_format odfa.num_states (sp.outmax * sec.kprime_bits) aid_bits →
          edge = ((odfa.rows.getD (perm.getD new_row 0) []) ++
            List.replicate (sp.outmax - (odfa.rows.getD (perm.getD new_row 0) []).length)
              dummyEdge).getD c dummyEdge →
          pt = zipXor ((row.drop (c * fmt.total_bytes)).take fmt.total_bytes)
            (G_bits
              (((build_gdfa_stream odfa sec sp aid_bits perm pad_seeds).2.1.pad_seeds.getD
                  new_row []).getD c [])
              (sp.outmax * sec.kprime_bits) gdfaCellLabel) →
          os2ip pt % 2 ^ fmt.pad_bits = 0
          ∧ os2ip pt / 2 ^ fmt.pad_bits % 2 ^ fmt.aid_bits = edge.attack_id
          ∧ os2ip pt / 2 ^ fmt.pad_bits / 2 ^ fmt.aid_bits % 2 ^ fmt.ns_bits =
              (build_gdfa_stream odfa sec sp aid_bits perm pad_seeds).2.1.inv_permutation.getD
                edge.next_state 0
          ∧ (build_gdfa_stream odfa sec sp aid_bits perm pad_seeds).2.1.inv_permutation.getD
              edge.next_state 0 < odfa.num_states := by
  obtain ⟨hn_pos, hstart, hrows_len, hrows⟩ := hodfa
  have hplen : perm.length = odfa.num_states := hperm.1
  have hnewlen : new_row < perm.length := by omega
  have hold_lt : perm.getD new_row 0 < odfa.num_states := by
    rw [getD_eq_getElem_of_lt _ _ _ hnewlen]
    exact hperm.2.1 _ (List.getElem_mem hnewlen)
  -- the inverse permutation computed by the builder
  have hinv_ok : inverse_perm perm =
      .ok (invPermWrites perm.enum (List.replicate odfa.num_states 0)) :=
    inverse_perm_ok perm odfa.num_states hperm
  set inv := invPermWrites perm.enum (List.replicate odfa.num_states 0) with hinv_def
  have hinv_len : inv.length = odfa.num_states := invPermWrites_of_perm_length perm _ hperm
  have hinv_lt : ∀ x ∈ inv, x < odfa.num_states :=
    invPermWrites_of_perm_entry_lt perm _ hperm hn_pos
  -- cell format facts
  set fmt0 := plan_cell_format odfa.num_states (sp.outmax * sec.kprime_bits) aid_bits with hfmt0
  have htbits : fmt0.total_bits = sp.outmax * sec.kprime_bits := plan_total_bits _ _ _ hfit
  have hns_le : odfa.num_states ≤ 2 ^ fmt0.ns_bits :=
    num_states_le_two_pow_ns_bits odfa.num_states hn_pos
  have hpadlen_bytes : ((sp.outmax * sec.kprime_bits) + 7) / 8 = fmt0.total_bytes := by
    rw [CellFormat.total_bytes, htbits]
  -- the padded base row
  set base := odfa.rows.getD (perm.getD new_row 0) [] with hbase_def
  have hbase_mem : base ∈ odfa.rows :=
    getD_mem_of_lt _ _ _ (by omega)
  have hbase_le : base.length ≤ sp.outmax := (hrows base hbase_mem).1
  set padded := base ++ List.replicate (sp.outmax - base.length) dummyEdge with hpadded_def
  have hpadded_len : padded.length = sp.outmax := pad_row_length base sp.outmax hbase_le
  have hedge : ∀ e ∈ padded, e.next_state < odfa.num_states ∧ e.attack_id < 2 ^ aid_bits := by
    intro e he
    rcases List.mem_append.mp he with hb | hd
    · exact ⟨(hrows base hbase_mem).2 e hb, haid base hbase_mem e hb⟩
    · rw [List.eq_of_mem_replicate hd]
      exact ⟨hn_pos, Nat.pos_pow_of_pos aid_bits (by omega)⟩
  -- the per-cell ciphertexts
  set seedrow := pad_seeds.getD new_row [] with hseedrow_def
  set g : Nat × ODFAEdge → Bytes := fun ce =>
    zipXor
      (i2osp ((inv.getD ce.2.next_state 0 * 2 ^ fmt0.aid_bits + ce.2.attack_id) * 2 ^ fmt0.pad_bits)
        fmt0.total_bytes)
      (G_bits (seedrow.getD ce.1 []) (sp.outmax * sec.kprime_bits) gdfaCellLabel) with hg_def
  have hcells : ∀ ce ∈ padded.enum,
      encCell fmt0 (sp.outmax * sec.kprime_bits) inv (seedrow.getD ce.1 []) ce.2 = .ok (g ce) := by
    intro ce hce
    have hce2 : ce.2 ∈ padded := snd_mem_of_mem_enum hce
    have hns_lt : inv.getD ce.2.next_state 0 < 2 ^ fmt0.ns_bits := by
      have h1 : inv.getD ce.2.next_state 0 ∈ inv :=
        getD_mem_of_lt _ _ _ (by rw [hinv_len]; exact (hedge _ hce2).1)
      have := hinv_lt _ h1
      omega
    rw [encCell, pack_bits_ok _ _ _ hns_lt (hedge _ hce2).2]
    rfl
  have hmapM := mapM_ok_of_forall padded.enum _ g hcells
  set cells := padded.enum.map g with hcells_def
  have hcell_len : ∀ b ∈ cells, b.length = fmt0.total_bytes := by
    intro b hb
    obtain ⟨ce, -, hback⟩ := List.mem_map.mp hb
    rw [← hback, hg_def]
    simp only [zipXor_length, i2osp_length, G_bits_length, hpadlen_bytes, Nat.min_self]
  have hcells_len : cells.length = sp.outmax := by
    rw [hcells_def, List.length_map, List.enum_eq_enumFrom, List.enumFrom_length, hpadded_len]
  have hbuildRow : buildRow odfa sp.outmax fmt0 (sp.outmax * sec.kprime_bits) perm inv pad_seeds
      new_row = .ok cells.flatten := by
    have hb1 : buildRow odfa sp.outmax fmt0 (sp.outmax * sec.kprime_bits) perm inv pad_seeds
        new_row
        = (pad_row_to_outmax base sp.outmax).bind (fun padded2 =>
            (padded2.enum.mapM (fun ce => encCell fmt0 (sp.outmax * sec.kprime_bits) inv
              (seedrow.getD ce.1 []) ce.2)).bind
              (fun cells2 => pure cells2.flatten)) := rfl
    rw [hb1, pad_row_to_outmax_ok base sp.outmax hbase_le, ← hpadded_def]
    show (padded.enum.mapM (fun ce => encCell fmt0 (sp.outmax * sec.kprime_bits) inv
      (seedrow.getD ce.1 []) ce.2)).bind (fun cells2 => pure cells2.flatten) = .ok cells.flatten
    rw [hmapM]
    rfl
  -- stream projection
  have hstream : (build_gdfa_stream odfa sec sp aid_bits perm pad_seeds).2.2.getD new_row
      (.error "") = .ok cells.flatten := by
    show ((List.range odfa.num_states).map
      (buildRow odfa sp.outmax
        (plan_cell_format odfa.num_states (make_packing sec sp).gdfa_cell_pad_bits aid_bits)
        (make_packing sec sp).gdfa_cell_pad_bits perm
        ((inverse_perm perm).toOption.getD []) pad_seeds)).getD new_row (.error "") =
      .ok cells.flatten
    rw [getD_map_range _ _ _ _ hrow]
    have hmp : (make_packing sec sp).gdfa_cell_pad_bits = sp.outmax * sec.kprime_bits := rfl
    rw [hmp]
    have hio : (inverse_perm perm).toOption.getD [] = inv := by rw [hinv_ok]; rfl
    rw [hio, ← hfmt0]
    exact hbuildRow
  refine ⟨cells.flatten, hstream, ?_, ?_⟩
  · have : (build_gdfa_stream odfa sec sp aid_bits perm pad_seeds).1.cell_bytes =
        fmt0.total_bytes := rfl
    rw [this, flatten_const_length cells fmt0.total_bytes hcell_len, hcells_len]
    ring
  · intro c hc fmt edge pt hfmt hedge_eq hpt
    subst hfmt
    have hcslice : (cells.flatten.drop (c * fmt0.total_bytes)).take fmt0.total_bytes =
        cells.getD c [] :=
      flatten_drop_take cells fmt0.total_bytes hcell_len c (by omega)
    have hcellc : cells.getD c [] = g (c, padded.getD c dummyEdge) := by
      have hc1 : c < padded.enum.length := by
        simpa [List.enum_eq_enumFrom, List.enumFrom_length, hpadded_len] using hc
      rw [hcells_def, getD_eq_getElem_of_lt _ c [] (by rwa [List.length_map]),
        List.getElem_map]
      have := enum_getD padded c (by omega)
      rw [getD_eq_getElem_of_lt _ c (0, dummyEdge) hc1] at this
      rw [this]
    have hseeds_eq : ((build_gdfa_stream odfa sec sp aid_bits perm pad_seeds).2.1.pad_seeds.getD
        new_row []).getD c [] = seedrow.getD c [] := rfl
    have hinv_eq : (build_gdfa_stream odfa sec sp aid_bits perm pad_seeds).2.1.inv_permutation =
        inv := by
      show (inverse_perm perm).toOption.getD [] = inv
      rw [hinv_ok]; rfl
    -- the decrypted plaintext
    set nsv := inv.getD edge.next_state 0 with hnsv
    have hedge_mem : edge ∈ padded := by
      rw [hedge_eq]
      exact getD_mem_of_lt _ _ _ (by omega)
    have hnsv_lt : nsv < odfa.num_states := by
      have h1 : nsv ∈ inv :=
        getD_mem_of_lt _ _ _ (by rw [hinv_len]; exact (hedge _ hedge_mem).1)
      exact hinv_lt _ h1
    have hnsv_lt2 : nsv < 2 ^ fmt0.ns_bits := by omega
    have haid_lt : edge.attack_id < 2 ^ fmt0.aid_bits := (hedge _ hedge_mem).2
    have hpt0 : pt = i2osp ((nsv * 2 ^ fmt0.aid_bits + edge.attack_id) * 2 ^ fmt0.pad_bits)
        fmt0.total_bytes := by
      rw [hpt, hseeds_eq, hcslice, hcellc, hg_def]
      have hply : (i2osp ((inv.getD (padded.getD c dummyEdge).next_state 0 * 2 ^ fmt0.aid_bits +
          (padded.getD c dummyEdge).attack_id) * 2 ^ fmt0.pad_bits) fmt0.total_bytes).length =
          (G_bits (seedrow.getD c []) (sp.outmax * sec.kprime_bits) gdfaCellLabel).length := by
        rw [i2osp_length, G_bits_length, hpadlen_bytes]
      rw [zipXor_self_cancel _ _ hply, hnsv, hedge_eq]
    have hv_lt : (nsv * 2 ^ fmt0.aid_bits + edge.attack_id) * 2 ^ fmt0.pad_bits <
        256 ^ fmt0.total_bytes := by
      have h1 := (packed_fields nsv edge.attack_id fmt0.ns_bits fmt0.aid_bits fmt0.pad_bits
        hnsv_lt2 haid_lt).2.2.2
      have hts : fmt0.ns_bits + fmt0.aid_bits + fmt0.pad_bits = fmt0.total_bits := rfl
      rw [hts] at h1
      have h2 : fmt0.total_bits ≤ 8 * fmt0.total_bytes := by
        rw [CellFormat.total_bytes]; omega
      have h3 : (256 : Nat) ^ fmt0.total_bytes = 2 ^ (8 * fmt0.total_bytes) := by
        rw [Nat.pow_mul]
      have h4 : (2 : Nat) ^ fmt0.total_bits ≤ 2 ^ (8 * fmt0.total_bytes) :=
        Nat.pow_le_pow_right (by omega) h2
      omega
    have hos : os2ip pt = (nsv * 2 ^ fmt0.aid_bits + edge.attack_id) * 2 ^ fmt0.pad_bits := by
      rw [hpt0, os2ip_i2osp _ _ hv_lt]
    obtain ⟨hf1, hf2, hf3, -⟩ := packed_fields nsv edge.attack_id fmt0.ns_bits fmt0.aid_bits
      fmt0.pad_bits hnsv_lt2 haid_lt
    rw [hinv_eq]
    refine ⟨by rw [hos]; exact hf1, by rw [hos]; exact hf2, ?_, by rw [← hnsv]; exact hnsv_lt⟩
    rw [hos, hf3, ← hnsv, Nat.mod_eq_of_lt hnsv_lt2]

/-- Tiny concrete build instance used by witnesses. -/
def secW : SecurityParams := ⟨8, 16, 128, 256⟩

def spW : SparsityParams := ⟨1, 1⟩

def odfaW : ODFA := ⟨2, 0, [(1, 3)], [[⟨0, 1, 3⟩], []]⟩

def permW : List Nat := [1, 0]

def seedsW : List (List Bytes) := [[[0x11]], [[0x22]]]

/-- Witness for C1 at a concrete 2-state ODFA. -/
theorem c1_build_gdfa_rows_decrypt_witness :
    ∃ row : Bytes,
      (build_gdfa_stream odfaW secW spW 8 permW seedsW).2.2.getD 0 (.error "") = .ok row
      ∧ row.length = spW.outmax * (build_gdfa_stream odfaW secW spW 8 permW seedsW).1.cell_bytes
      ∧ ∀ c, c < spW.outmax → ∀ fmt edge pt,
          fmt = plan_cell_format odfaW.num_states (spW.outmax * secW.kprime_bits) 8 →
          edge = ((odfaW.rows.getD (permW.getD 0 0) []) ++
            List.replicate (spW.outmax - (odfaW.rows.getD (permW.getD 0 0) []).length)
              dummyEdge).getD c dummyEdge →
          pt = zipXor ((row.drop (c * fmt.total_bytes)).take fmt.total_bytes)
            (G_bits
              (((build_gdfa_stream odfaW secW spW 8 permW seedsW).2.1.pad_seeds.getD 0 []).getD
                c [])
              (spW.outmax * secW.kprime_bits) gdfaCellLabel) →
          os2ip pt % 2 ^ fmt.pad_bits = 0
          ∧ os2ip pt / 2 ^ fmt.pad_bits % 2 ^ fmt.aid_bits = edge.attack_id
          ∧ os2ip pt / 2 ^ fmt.pad_bits / 2 ^ fmt.aid_bits % 2 ^ fmt.ns_bits =
              (build_gdfa_stream odfaW secW spW 8 permW seedsW).2.1.inv_permutation.getD
                edge.next_state 0
          ∧ (build_gdfa_stream odfaW secW spW 8 permW seedsW).2.1.inv_permutation.getD
              edge.next_state 0 < odfaW.num_states :=
  c1_build_gdfa_rows_decrypt odfaW secW spW 8 permW seedsW
    (by decide) (by decide) (by decide) (by decide) (by decide) (by decide) (by decide)
    0 (by decide)

theorem bind_error_eq {α β : Type} (msg : String) (k : α → Except String β) :
    (Except.error msg >>= k) = Except.error msg := rfl

theorem bind_ok_eq {α β : Type} (a : α) (k : α → Except String β) :
    (Except.ok a >>= k) = k a := rfl

theorem exbind_error {α β : Type} (msg : String) (k : α → Except String β) :
    Except.bind (Except.error msg) k = Except.error msg := rfl

theorem exbind_ok {α β : Type} (a : α) (k : α → Except String β) :
    Except.bind (Except.ok a) k = k a := rfl

theorem exmap_error {α β : Type} (msg : String) (g : α → β) :
    (Except.error msg : Except String α).map g = .error msg := rfl

theorem exmap_ok {α β : Type} (a : α) (g : α → β) :
    (Except.ok a : Except String α).map g = .ok (g a) := rfl

theorem mapM_ok_elem {α β : Type} (l : List α) (f : α → Except String β) (ys : List β)
    (h : l.mapM f = .ok ys) : ∀ x ∈ l, ∃ y, f x = .ok y := by
  induction l generalizing ys with
  | nil => intro x hx; simp at hx
  | cons a as ih =>
    intro x hx
    rw [List.mapM_cons] at h
    cases hfa : f a with
    | error msg =>
      rw [hfa, bind_error_eq] at h
      exact Except.noConfusion h
    | ok y =>
      rw [hfa, bind_ok_eq] at h
      cases hrest : as.mapM f with
      | error msg =>
        rw [hrest, bind_error_eq] at h
        exact Except.noConfusion h
      | ok zs =>
        rcases List.mem_cons.mp hx with rfl | hxs
        · exact ⟨y, hfa⟩
        · exact ih zs hrest x hxs

/-- **C9.**  An ODFA can pass `ODFA.sanity_check` (which only requires
`attack_id >= 0`) while containing an edge with
`attack_id >= 2^aid_bits`; packing the row holding that edge then raises
(`_pack_bits`), so the builder's stream never yields a ciphertext row for
it: the row's stream entry is an error, never `.ok`. -/
theorem c9_pack_bits_rejects_large_attack_id
    (odfa : ODFA) (sec : SecurityParams) (sp : SparsityParams) (aid_bits : Nat)
    (perm : List Nat) (pad_seeds : List (List Bytes))
    (hodfa : odfa.sanity sp.outmax)
    (hperm : is_perm perm odfa.num_states)
    (new_row : Nat) (hrow : new_row < odfa.num_states)
    (e : ODFAEdge) (he : e ∈ odfa.rows.getD (perm.getD new_row 0) [])
    (hbad : 2 ^ aid_bits ≤ e.attack_id) :
    ∀ row : Bytes,
      (build_gdfa_stream odfa sec sp aid_bits perm pad_seeds).2.2.getD new_row (.error "") ≠
        .ok row := by
  intro row hok
  obtain ⟨hn_pos, -, hrows_len, hrows⟩ := hodfa
  have hplen : perm.length = odfa.num_states := hperm.1
  have hold_lt : perm.getD new_row 0 < odfa.num_states := by
    rw [getD_eq_getElem_of_lt _ _ _ (by omega)]
    exact hperm.2.1 _ (List.getElem_mem (by omega))
  set base := odfa.rows.getD (perm.getD new_row 0) [] with hbase_def
  have hbase_mem : base ∈ odfa.rows := getD_mem_of_lt _ _ _ (by omega)
  have hbase_le : base.length ≤ sp.outmax := (hrows base hbase_mem).1
  set fmt0 := plan_cell_format odfa.num_states ((make_packing sec sp).gdfa_cell_pad_bits)
    aid_bits with hfmt0
  set inv0 : List Nat := (inverse_perm perm).toOption.getD [] with hinv0
  have hstream0 : (build_gdfa_stream odfa sec sp aid_bits perm pad_seeds).2.2 =
      (List.range odfa.num_states).map
        (buildRow odfa sp.outmax fmt0 ((make_packing sec sp).gdfa_cell_pad_bits) perm inv0
          pad_seeds) := rfl
  rw [hstream0, getD_map_range _ _ _ _ hrow] at hok
  have hb1 : buildRow odfa sp.outmax fmt0 ((make_packing sec sp).gdfa_cell_pad_bits) perm inv0
      pad_seeds new_row
      = (pad_row_to_outmax base sp.outmax).bind (fun padded2 =>
          (padded2.enum.mapM (fun ce => encCell fmt0 ((make_packing sec sp).gdfa_cell_pad_bits)
            inv0 ((pad_seeds.getD new_row []).getD ce.1 []) ce.2)).bind
            (fun cells2 => pure cells2.flatten)) := rfl
  rw [hb1, pad_row_to_outmax_ok base sp.outmax hbase_le, exbind_ok] at hok
  set padded := base ++ List.replicate (sp.outmax - base.length) dummyEdge with hpadded_def
  cases hmap : padded.enum.mapM (fun ce => encCell fmt0
      ((make_packing sec sp).gdfa_cell_pad_bits) inv0
      ((pad_seeds.getD new_row []).getD ce.1 []) ce.2) with
  | error msg =>
    rw [hmap, exbind_error] at hok
    exact Except.noConfusion hok
  | ok cells =>
    have hmem_pad : e ∈ padded := List.mem_append.mpr (Or.inl he)
    obtain ⟨i, hi⟩ := List.mem_iff_get.mp hmem_pad
    have hmem_enum : (i.1, e) ∈ padded.enum := by
      rw [List.mk_mem_enum_iff_getElem?]
      rw [List.getElem?_eq_getElem i.2]
      exact congrArg some (by simpa [List.get_eq_getElem] using hi)
    obtain ⟨y, hy⟩ := mapM_ok_elem _ _ _ hmap (i.1, e) hmem_enum
    have hpberr : ∃ msg, pack_bits (inv0.getD e.next_state 0) e.attack_id fmt0 = .error msg := by
      by_cases hns : 2 ^ fmt0.ns_bits ≤ inv0.getD e.next_state 0
      · exact ⟨_, by rw [pack_bits, if_pos hns]⟩
      · exact ⟨_, by
          rw [pack_bits, if_neg hns, if_pos (show 2 ^ fmt0.aid_bits ≤ e.attack_id from hbad)]⟩
    obtain ⟨msg, hmsg⟩ := hpberr
    rw [encCell, hmsg, exmap_error] at hy
    exact Except.noConfusion hy

/-- Witness for C9: a 1-state ODFA with `attack_id = 256` and
`aid_bits = 8` never yields its ciphertext row. -/
theorem c9_pack_bits_rejects_large_attack_id_witness :
    (build_gdfa_stream ⟨1, 0, [(0, 256)], [[⟨0, 0, 256⟩]]⟩ secW spW 8 [0]
      [[[0x11]]]).2.2.getD 0 (.error "") ≠ .ok [] :=
  c9_pack_bits_rejects_large_attack_id ⟨1, 0, [(0, 256)], [[⟨0, 0, 256⟩]]⟩ secW spW 8 [0]
    [[[0x11]]] (by decide) (by decide) 0 (by decide) ⟨0, 0, 256⟩ (by decide) (by decide) []

/-! ### Frame property of the builder (state-passing embedding)

To settle whether `build_gdfa_stream` mutates its input ODFA we make the
only potentially mutating step explicit: `pad_row_to_outmax` receives the
row object and we return, next to the padded copy, the state of that
object after the call.  In the source the copy is `padded = list(row.edges)`
and only `padded` is appended to, so the object comes back unchanged. -/

/-- `pad_row_to_outmax` with the input row's post-call state made explicit. -/
def pad_row_to_outmax_st (row : ODFARow) (outmax : Nat) :
    Except String (ODFARow × ODFARow) :=
  (pad_row_to_outmax row outmax).map (fun padded => (padded, row))

/-- One `_row_iter` iteration threading the ODFA state: the row object read
from `odfa.rows` is written back in whatever state `pad_row_to_outmax`
left it. -/
def buildRowSt (odfa : ODFA) (outmax : Nat) (fmt : CellFormat) (gdfa_cell_pad_bits : Nat)
    (perm inv_perm : List Nat) (pad_seeds : List (List Bytes)) (new_row : Nat) :
    Except String Bytes × ODFA :=
  let old_state := perm.getD new_row 0
  match pad_row_to_outmax_st (odfa.rows.getD old_state []) outmax with
  | .error msg => (.error msg, odfa)
  | .ok (padded, row_after) =>
    let odfa2 := { odfa with rows := odfa.rows.set old_state row_after }
    match padded.enum.mapM (fun ce =>
        encCell fmt gdfa_cell_pad_bits inv_perm ((pad_seeds.getD new_row []).getD ce.1 []) ce.2)
      with
    | .error msg => (.error msg, odfa2)
    | .ok cells => (.ok cells.flatten, odfa2)

/-- Consuming the whole stream: fold `buildRowSt` over all `new_row`s. -/
def buildConsume (odfa : ODFA) (sec : SecurityParams) (sp : SparsityParams)
    (aid_bits : Nat) (perm : List Nat) (pad_seeds : List (List Bytes)) :
    List (Except String Bytes) × ODFA :=
  let pack := make_packing sec sp
  let fmt := plan_cell_format odfa.num_states pack.gdfa_cell_pad_bits aid_bits
  let inv_perm := (inverse_perm perm).toOption.getD []
  (List.range odfa.num_states).foldl
    (fun acc new_row =>
      let r := buildRowSt acc.2 sp.outmax fmt pack.gdfa_cell_pad_bits perm inv_perm pad_seeds
        new_row
      (acc.1 ++ [r.1], r.2))
    ([], odfa)

theorem set_getD_self {α : Type} (l : List α) (i : Nat) (d : α) :
    l.set i (l.getD i d) = l := by
  induction l generalizing i with
  | nil => rfl
  | cons a as ih =>
    cases i with
    | zero => rfl
    | succ i => simp only [List.set_cons_succ, List.getD_cons_succ, ih]

theorem buildRowSt_frame (odfa : ODFA) (outmax : Nat) (fmt : CellFormat)
    (gdfa_cell_pad_bits : Nat) (perm inv_perm : List Nat) (pad_seeds : List (List Bytes))
    (new_row : Nat) :
    (buildRowSt odfa outmax fmt gdfa_cell_pad_bits perm inv_perm pad_seeds new_row).2 = odfa := by
  rw [buildRowSt]
  cases hpad : pad_row_to_outmax_st (odfa.rows.getD (perm.getD new_row 0) []) outmax with
  | error msg => rfl
  | ok pr =>
    obtain ⟨p1, p2⟩ := pr
    have hsnd : p2 = odfa.rows.getD (perm.getD new_row 0) [] := by
      rw [pad_row_to_outmax_st] at hpad
      cases hp : pad_row_to_outmax (odfa.rows.getD (perm.getD new_row 0) []) outmax with
      | error msg => rw [hp, exmap_error] at hpad; exact Except.noConfusion hpad
      | ok padded =>
        rw [hp, exmap_ok] at hpad
        exact (congrArg Prod.snd (Except.ok.inj hpad)).symm
    show (match p1.enum.mapM (fun ce : Nat × ODFAEdge =>
        encCell fmt gdfa_cell_pad_bits inv_perm ((pad_seeds.getD new_row []).getD ce.1 []) ce.2)
      with
      | .error msg =>
        (Except.error msg, { odfa with rows := odfa.rows.set (perm.getD new_row 0) p2 })
      | .ok cells =>
        (.ok cells.flatten, { odfa with rows := odfa.rows.set (perm.getD new_row 0) p2 })).2 =
      odfa
    cases hm : p1.enum.mapM (fun ce =>
        encCell fmt gdfa_cell_pad_bits inv_perm ((pad_seeds.getD new_row []).getD ce.1 []) ce.2)
      with
    | error msg =>
      show ({ odfa with rows := odfa.rows.set (perm.getD new_row 0) p2 } : ODFA) = odfa
      rw [hsnd, set_getD_self]
    | ok cells =>
      show ({ odfa with rows := odfa.rows.set (perm.getD new_row 0) p2 } : ODFA) = odfa
      rw [hsnd, set_getD_self]

theorem foldl_preserves_snd {α β γ : Type} (step : (β × α) → γ → (β × α))
    (hstep : ∀ s i, (step s i).2 = s.2) :
    ∀ (idxs : List γ) (s : β × α), (idxs.foldl step s).2 = s.2 := by
  intro idxs
  induction idxs with
  | nil => intro s; rfl
  | cons i is ih =>
    intro s
    rw [List.foldl_cons, ih (step s i), hstep]

/-- **C10.**  `build_gdfa_stream` never mutates its input ODFA: after
building and fully consuming the row stream, `num_states`, `start_state`,
the accepting map and every row's edge list are unchanged, because row
padding works on a fresh copy (`pad_row_to_outmax`). -/
theorem c10_build_does_not_mutate_odfa
    (odfa : ODFA) (sec : SecurityParams) (sp : SparsityParams) (aid_bits : Nat)
    (perm : List Nat) (pad_seeds : List (List Bytes)) :
    (buildConsume odfa sec sp aid_bits perm pad_seeds).2.num_states = odfa.num_states
    ∧ (buildConsume odfa sec sp aid_bits perm pad_seeds).2.start_state = odfa.start_state
    ∧ (buildConsume odfa sec sp aid_bits perm pad_seeds).2.accepting = odfa.accepting
    ∧ (buildConsume odfa sec sp aid_bits perm pad_seeds).2.rows = odfa.rows := by
  have hmain : (buildConsume odfa sec sp aid_bits perm pad_seeds).2 = odfa :=
    foldl_preserves_snd
      (fun (acc2 : List (Except String Bytes) × ODFA) (new_row : Nat) =>
        let r := buildRowSt acc2.2 sp.outmax
          (plan_cell_format odfa.num_states (make_packing sec sp).gdfa_cell_pad_bits aid_bits)
          (make_packing sec sp).gdfa_cell_pad_bits perm
          ((inverse_perm perm).toOption.getD []) pad_seeds new_row
        (acc2.1 ++ [r.1], r.2))
      (fun s i => buildRowSt_frame s.2 sp.outmax
        (plan_cell_format odfa.num_states (make_packing sec sp).gdfa_cell_pad_bits aid_bits)
        (make_packing sec sp).gdfa_cell_pad_bits perm
        ((inverse_perm perm).toOption.getD []) pad_seeds i)
      (List.range odfa.num_states) (([] : List (Except String Bytes)), odfa)
  exact ⟨by rw [hmain], by rw [hmain], by rw [hmain], by rw [hmain]⟩

/-! ### Fisher–Yates sampling (`sample_perm`) and its draw distribution

`sample_perm` draws `int.from_bytes(os.urandom(2), "big") % (i + 1)` per
swap: a two-byte value reduced mod `i + 1`, with no rejection.  We embed
the shuffle with the raw two-byte draws passed in as a stream. -/

/-- One Fisher–Yates swap `perm[i], perm[j] = perm[j], perm[i]`. -/
def fyStep (perm : List Nat) (i j : Nat) : List Nat :=
  (perm.set i (perm.getD j 0)).set j (perm.getD i 0)

/-- `sample_perm(n)` with the per-step `os.urandom(2)` value supplied by
`draws i` (the loop runs `i = n-1, ..., 1`; the code reduces the raw
two-byte draw mod `i + 1`). -/
def sample_perm (n : Nat) (draws : Nat → Nat) : List Nat :=
  ((List.range (n - 1)).map (fun k => n - 1 - k)).foldl
    (fun perm i => fyStep perm i (draws i % (i + 1)))
    (List.range n)

theorem countP_mod3 (t : Nat) (ht : t < 3) (k : Nat) :
    (List.range (3 * k)).countP (fun r => r % 3 == t) = k := by
  induction k with
  | zero => rfl
  | succ k ih =>
    have h3 : 3 * (k + 1) = 3 * k + 1 + 1 + 1 := by ring
    rw [h3, List.range_succ, List.range_succ, List.range_succ,
      List.countP_append, List.countP_append, List.countP_append, ih]
    have e0 : 3 * k % 3 = 0 := by omega
    have e1 : (3 * k + 1) % 3 = 1 := by omega
    have e2 : (3 * k + 1 + 1) % 3 = 2 := by omega
    interval_cases t <;>
      simp [List.countP_cons, List.countP_nil, e0, e1, e2]

/-- **C4.**  The code draws two bytes and reduces mod `i + 1` with no
rejection.  For `n = 3` the swap at `i = 2` therefore selects `j = 0` for
21846 of the 65536 possible draw values but `j = 1` (resp. `2`) for only
21845, and distinct `j` values yield distinct final permutations — so the
returned bijection is not uniformly distributed, contradicting the claim
that the draws are unbiased (rejection sampling or ≥ 4 bytes with a
rejection window). -/
theorem c4_sample_perm_draw_biased :
    (∀ draws : Nat → Nat, sample_perm 3 draws =
      fyStep (fyStep [0, 1, 2] 2 (draws 2 % 3)) 1 (draws 1 % 2))
    ∧ (List.range 65536).countP (fun r => r % 3 == 0) = 21846
    ∧ (List.range 65536).countP (fun r => r % 3 == 1) = 21845
    ∧ (List.range 65536).countP (fun r => r % 3 == 2) = 21845
    ∧ (∀ j1 : Nat, j1 < 2 →
        fyStep (fyStep [0, 1, 2] 2 0) 1 j1 ≠ fyStep (fyStep [0, 1, 2] 2 1) 1 j1)
    ∧ (21846 : Nat) ≠ 21845 := by
  refine ⟨fun draws => rfl, ?_, ?_, ?_, ?_, by omega⟩
  · have h : (65536 : Nat) = 3 * 21845 + 1 := by norm_num
    rw [h, List.range_succ, List.countP_append, countP_mod3 0 (by omega) 21845]
    norm_num
  · have h : (65536 : Nat) = 3 * 21845 + 1 := by norm_num
    rw [h, List.range_succ, List.countP_append, countP_mod3 1 (by omega) 21845]
    norm_num
  · have h : (65536 : Nat) = 3 * 21845 + 1 := by norm_num
    rw [h, List.range_succ, List.countP_append, countP_mod3 2 (by omega) 21845]
    norm_num
  · intro j1 hj1
    interval_cases j1 <;> decide

/-- Witness for C4's universally quantified components at concrete draws. -/
theorem c4_sample_perm_draw_biased_witness :
    sample_perm 3 (fun _ => 5) = fyStep (fyStep [0, 1, 2] 2 (5 % 3)) 1 (5 % 2)
    ∧ fyStep (fyStep [0, 1, 2] 2 0) 1 1 ≠ fyStep (fyStep [0, 1, 2] 2 1) 1 1 :=
  ⟨(c4_sample_perm_draw_biased).1 (fun _ => 5),
    (c4_sample_perm_draw_biased).2.2.2.2.1 1 (by decide)⟩

/-! ### Refinement of `G_bytes` against the spec's PRF expression (C3) -/

/-- The spec's reading of `G_bytes`: the *chained* PRF expansion
(`T_i = HMAC(key, T_{i-1} || info || I2OSP(i,4))`, `T_0 = b""`) applied to
`seed` with info
`b"PRG|" || label || b"|ctr=" || I2OSP(i,4) || b"|len=" || I2OSP(out_len,4)`.
This follows the spec sentence, for comparison with the source's
`_prg_ctr`. -/
def specPrgChain (seed label : Bytes) (out_len : Nat) (t : Bytes) (ctr : Nat) : Nat → Bytes
  | 0 => []
  | n + 1 =>
    let t2 := hmac_sha256 seed (t ++ prgData label ctr out_len ++ i2osp ctr 4)
    t2 ++ specPrgChain seed label out_len t2 (ctr + 1) n

/-- The spec's `G_bytes`: chained expansion truncated to `out_len`. -/
def G_bytes_specPRF (seed : Bytes) (out_len : Nat) (label : Bytes) : Bytes :=
  (specPrgChain seed label out_len [] 1 ((out_len + 31) / 32)).take out_len

set_option maxRecDepth 100000 in
/-- Counterexample for C3: the code's `G_bytes` does not chain the previous
block and does not append an extra counter, so it differs from the spec's
chained PRF expression already on a one-block output. -/
theorem c3_counterexample_prg_not_chained_prf :
    G_bytes [0] 4 [] ≠ G_bytes_specPRF [0] 4 [] := by decide

/-- Independent-block reference expansion (the amended C3): block `i` is
`HMAC(seed, b"PRG|" || label || b"|ctr=" || I2OSP(i,4) || b"|len=" || I2OSP(out_len,4))`,
with no chaining of `T_{i-1}` and no appended counter. -/
def prgBlocksRef (seed label : Bytes) (out_len : Nat) (ctr : Nat) : Nat → Bytes
  | 0 => []
  | n + 1 =>
    hmac_sha256 seed (prgData label ctr out_len) ++ prgBlocksRef seed label out_len (ctr + 1) n

def G_bytes_ref (seed : Bytes) (out_len : Nat) (label : Bytes) : Bytes :=
  (prgBlocksRef seed label out_len 1 ((out_len + 31) / 32)).take out_len

theorem prgBlocksRef_eq_flatten (seed label : Bytes) (out_len : Nat) :
    ∀ (n ctr : Nat), prgBlocksRef seed label out_len ctr n =
      ((List.range n).map (fun k => hmac_sha256 seed (prgData label (ctr + k) out_len))).flatten
  | 0, ctr => rfl
  | n + 1, ctr => by
    have hfun : ((fun k => hmac_sha256 seed (prgData label (ctr + k) out_len)) ∘ Nat.succ)
        = fun k => hmac_sha256 seed (prgData label (ctr + 1 + k) out_len) := by
      funext k
      show hmac_sha256 seed (prgData label (ctr + Nat.succ k) out_len) = _
      have h : ctr + Nat.succ k = ctr + 1 + k := by omega
      rw [h]
    rw [prgBlocksRef, prgBlocksRef_eq_flatten seed label out_len n (ctr + 1),
      List.range_succ_eq_map, List.map_cons, List.flatten_cons, List.map_map, hfun]
    simp

/-- **C3 (amended).**  `G_bytes(seed, out_len, label)` equals the
*unchained* counter expansion whose per-block info already carries the
counter: blocks `HMAC(seed, "PRG|"||label||"|ctr="||I2OSP(i,4)||"|len="||I2OSP(out_len,4))`
for `i = 1, 2, ...`, concatenated and truncated to `out_len` — not the
chained `T_{i-1}`-prefixed PRF expansion the spec describes. -/
theorem c3_G_bytes_eq_indep_counter_blocks (seed label : Bytes) (out_len : Nat) :
    G_bytes seed out_len label = G_bytes_ref seed out_len label := by
  rw [G_bytes, G_bytes_ref, prg_ctr, prgBlocksRef_eq_flatten]
  have hf : (fun k => hmac_sha256 seed (prgData label (1 + k) out_len)) =
      fun k => hmac_sha256 seed (prgData label (k + 1) out_len) := by
    funext k
    rw [Nat.add_comm]
  rw [hf]

/-! ## `src/client/online/gdfa_evaluator.py` -/

/-- `_derive_cell_format(pub)` (evaluator copy): `cell_bits = cell_bytes*8`,
`ns_bits = max(1, (num_states-1).bit_length())`, raise if
`ns_bits + aid_bits > cell_bits` (carried as a hypothesis where needed). -/
def derive_cell_format (pub : GDFAPublicHeader) : CellFormat where
  ns_bits := max 1 (bit_length (pub.num_states - 1))
  aid_bits := pub.aid_bits
  pad_bits := pub.cell_bytes * 8 - (max 1 (bit_length (pub.num_states - 1)) + pub.aid_bits)

/-- `_unpack_cell(pt, fmt)`: strip the low pad bits, return `(ns, aid)`. -/
def unpack_cell (pt : Bytes) (fmt : CellFormat) : Except String (Nat × Nat) :=
  if pt.length ≠ fmt.total_bytes then .error "cell plaintext length mismatch"
  else
    let v := os2ip pt >>> fmt.pad_bits
    .ok ((v >>> fmt.aid_bits) &&& ((1 <<< fmt.ns_bits) - 1),
      v &&& ((1 <<< fmt.aid_bits) - 1))

/-- `RowStore.get`. -/
def rowstore_get (pub : GDFAPublicHeader) (rows : List Bytes) (row_id : Nat) :
    Except String Bytes :=
  if pub.num_states ≤ row_id then .error "row_id out of range" else .ok (rows.getD row_id [])

/-- `GDFARunner._slice_cell`. -/
def slice_cell (pub : GDFAPublicHeader) (row_bytes : Bytes) (col : Nat) :
    Except String Bytes :=
  if pub.outmax ≤ col then .error "col out of range"
  else .ok ((row_bytes.drop (col * pub.cell_bytes)).take pub.cell_bytes)

structure EvalResult where
  final_row : Nat
  first_attack_id : Nat
  last_attack_id : Nat
  steps : Nat
deriving DecidableEq

/-- `GDFARunner.evaluate`: the per-byte loop, with the pad oracle passed in
as a function (`PadOracle.derive_for_row`). -/
def evaluate (pub : GDFAPublicHeader) (rows : List Bytes)
    (oracle : Nat → Nat → Except String (Nat × Bytes)) (stop_on_first_attack : Bool) :
    List Nat → Nat → Nat → Nat → Nat → Except String EvalResult
  | [], row, first, last, steps => .ok ⟨row, first, last, steps⟩
  | x :: rest, row, first, last, steps =>
    (oracle row x).bind (fun cp =>
      if cp.2.length ≠ pub.cell_bytes then .error "pad length mismatch"
      else
        (rowstore_get pub rows row).bind (fun enc_row =>
          (slice_cell pub enc_row cp.1).bind (fun ct =>
            (unpack_cell (zipXor ct cp.2) (derive_cell_format pub)).bind (fun nsaid =>
              if nsaid.2 ≠ 0 then
                if stop_on_first_attack then
                  .ok ⟨nsaid.1, if first = 0 then nsaid.2 else first, nsaid.2, steps + 1⟩
                else
                  evaluate pub rows oracle stop_on_first_attack rest nsaid.1
                    (if first = 0 then nsaid.2 else first) nsaid.2 (steps + 1)
              else
                evaluate pub rows oracle stop_on_first_attack rest nsaid.1 first last
                  (steps + 1)))))

/-- `runner.evaluate(data)` from the start row with zeroed attack state. -/
def run_evaluate (pub : GDFAPublicHeader) (rows : List Bytes)
    (oracle : Nat → Nat → Except String (Nat × Bytes)) (data : List Nat)
    (stop_on_first_attack : Bool) : Except String EvalResult :=
  evaluate pub rows oracle stop_on_first_attack data pub.start_row 0 0 0

/-! ### Scenario B fixture (C5): synthetic rows, deterministic oracle -/

/-- Scenario B public header: `num_states=4, outmax=2, cmax=2, aid_bits=8`,
64-bit cells, identity permutation, `start_row=0`. -/
def pubB : GDFAPublicHeader := ⟨256, 2, 2, 4, 0, [0, 1, 2, 3], 8, 16, 8⟩

/-- The test's `_pack_cell` for Scenario B (`ns_bits=2, aid_bits=8,
pad_bits=54, cell_bytes=8`). -/
def mkCellB (ns aid : Nat) : Bytes := i2osp (((ns <<< 8) ||| aid) <<< 54) 8

/-- Scenario B transition targets: column 0 maps `r` to `(r+1) mod 4`,
column 1 is a self-loop. -/
def nsB (row col : Nat) : Nat := if col = 0 then (row + 1) % 4 else row

/-- Scenario B attack ids: row 2 column 0 carries `attack_id = 9`. -/
def aidB (row col : Nat) : Nat := if row = 2 ∧ col = 0 then 9 else 0

/-- Scenario B synthetic ciphertext rows, one XOR pad per cell. -/
def rowsB (pads : Nat → Nat → Bytes) : List Bytes :=
  (List.range 4).map (fun row =>
    zipXor (mkCellB (nsB row 0) (aidB row 0)) (pads row 0) ++
      zipXor (mkCellB (nsB row 1) (aidB row 1)) (pads row 1))

/-- Scenario B deterministic oracle: `col = x mod outmax`, preloaded pads. -/
def oracleB (pads : Nat → Nat → Bytes) : Nat → Nat → Except String (Nat × Bytes) :=
  fun row x => .ok (x % 2, pads row (x % 2))

theorem unpackB (ns aid : Nat) (hns : ns < 4) (haid : aid < 256) :
    unpack_cell (mkCellB ns aid) (derive_cell_format pubB) = .ok (ns, aid) := by
  have hfmt : derive_cell_format pubB = ⟨2, 8, 54⟩ := by decide
  have hval : ((ns <<< 8) ||| aid) <<< 54 = (ns * 2 ^ 8 + aid) * 2 ^ 54 := by
    rw [Nat.shiftLeft_eq, Nat.shiftLeft_eq, Nat.mul_comm ns (2 ^ 8),
      ← Nat.mul_add_lt_is_or haid, Nat.mul_comm (2 ^ 8) ns]
  obtain ⟨hf1, hf2, hf3, hf4⟩ := packed_fields ns aid 2 8 54 (by omega) haid
  have hlt : ((ns <<< 8) ||| aid) <<< 54 < 256 ^ 8 := by
    rw [hval]
    calc (ns * 2 ^ 8 + aid) * 2 ^ 54 < 2 ^ (2 + 8 + 54) := hf4
      _ = 256 ^ 8 := by norm_num
  rw [hfmt, unpack_cell, mkCellB]
  rw [if_neg (by rw [i2osp_length]; decide)]
  show Except.ok
      ((os2ip (i2osp (((ns <<< 8) ||| aid) <<< 54) 8) >>> 54) >>> 8 &&& ((1 <<< 2) - 1),
        os2ip (i2osp (((ns <<< 8) ||| aid) <<< 54) 8) >>> 54 &&& ((1 <<< 8) - 1)) =
    Except.ok (ns, aid)
  rw [os2ip_i2osp _ _ hlt, hval]
  have hm1 : ((1 : Nat) <<< 2) - 1 = 2 ^ 2 - 1 := by decide
  have hm2 : ((1 : Nat) <<< 8) - 1 = 2 ^ 8 - 1 := by decide
  rw [hm1, hm2, Nat.and_pow_two_sub_one_eq_mod, Nat.and_pow_two_sub_one_eq_mod]
  simp only [Nat.shiftRight_eq_div_pow]
  rw [hf2, hf3, Nat.mod_eq_of_lt (show ns < 2 ^ 2 by omega)]

theorem nsB_lt (row c : Nat) (hrow : row < 4) : nsB row c < 4 := by
  rw [nsB]
  by_cases hc : c = 0
  · rw [if_pos hc]; exact Nat.mod_lt _ (by omega)
  · rw [if_neg hc]; exact hrow

theorem aidB_lt (row c : Nat) : aidB row c < 256 := by
  rw [aidB]
  by_cases hc : row = 2 ∧ c = 0
  · rw [if_pos hc]; omega
  · rw [if_neg hc]; omega

theorem cellB_length (pads : Nat → Nat → Bytes) (hlen : ∀ r c, (pads r c).length = 8)
    (row c : Nat) : (zipXor (mkCellB (nsB row c) (aidB row c)) (pads row c)).length = 8 := by
  rw [zipXor_length, mkCellB, i2osp_length, hlen]
  rfl

theorem slice_rowsB (pads : Nat → Nat → Bytes) (hlen : ∀ r c, (pads r c).length = 8)
    (row c : Nat) (hc : c < 2) :
    ((zipXor (mkCellB (nsB row 0) (aidB row 0)) (pads row 0) ++
        zipXor (mkCellB (nsB row 1) (aidB row 1)) (pads row 1)).drop (c * 8)).take 8 =
      zipXor (mkCellB (nsB row c) (aidB row c)) (pads row c) := by
  interval_cases c
  · rw [Nat.zero_mul, List.drop_zero, List.take_left' (cellB_length pads hlen row 0)]
  · rw [Nat.one_mul, List.drop_left' (cellB_length pads hlen row 0),
      ← cellB_length pads hlen row 1, List.take_length]

theorem c5_step (pads : Nat → Nat → Bytes) (hlen : ∀ r c, (pads r c).length = 8)
    (stop : Bool) (x row first last steps : Nat) (hrow : row < 4) (rest : List Nat) :
    evaluate pubB (rowsB pads) (oracleB pads) stop (x :: rest) row first last steps =
      if aidB row (x % 2) ≠ 0 then
        (if stop then .ok ⟨nsB row (x % 2), (if first = 0 then aidB row (x % 2) else first),
            aidB row (x % 2), steps + 1⟩
         else evaluate pubB (rowsB pads) (oracleB pads) stop rest (nsB row (x % 2))
            (if first = 0 then aidB row (x % 2) else first) (aidB row (x % 2)) (steps + 1))
      else evaluate pubB (rowsB pads) (oracleB pads) stop rest (nsB row (x % 2)) first last
        (steps + 1) := by
  have hx2 : x % 2 < 2 := Nat.mod_lt _ (by omega)
  rw [evaluate, oracleB, exbind_ok]
  rw [if_neg (by simp [hlen row (x % 2)]; rfl)]
  rw [rowstore_get, if_neg (by show ¬ (4 ≤ row); omega), exbind_ok]
  rw [rowsB, getD_map_range _ _ _ _ hrow]
  rw [slice_cell, if_neg (by show ¬ (2 ≤ x % 2); omega), exbind_ok]
  have hslice := slice_rowsB pads hlen row (x % 2) hx2
  rw [show pubB.cell_bytes = 8 from rfl, hslice]
  rw [zipXor_self_cancel _ _ (by rw [mkCellB, i2osp_length, hlen])]
  rw [unpackB _ _ (nsB_lt row (x % 2) hrow) (aidB_lt row (x % 2)), exbind_ok]

/-- **C5.**  Scenario B: with the synthetic 4-state rows (column 0 maps
`r` to `(r+1) mod 4`, column 1 self-loops, row 2 column 0 carries
`attack_id 9`) and the deterministic oracle `col = x mod outmax`,
`evaluate(b"\x00\x00\x00\x00", stop_on_first_attack=True)` returns
`steps = 3`, `first_attack_id = 9` (final row 3, last 9), and
`evaluate(b"\x00\x01\x00\x01", stop_on_first_attack=False)` returns
`steps = 4`, `last_attack_id = 0`, final row 2. -/
theorem c5_scenarioB_eval (pads : Nat → Nat → Bytes)
    (hlen : ∀ r c, (pads r c).length = 8) :
    run_evaluate pubB (rowsB pads) (oracleB pads) [0, 0, 0, 0] true = .ok ⟨3, 9, 9, 3⟩
    ∧ run_evaluate pubB (rowsB pads) (oracleB pads) [0, 1, 0, 1] false = .ok ⟨2, 0, 0, 4⟩ := by
  constructor
  · show evaluate pubB (rowsB pads) (oracleB pads) true ([0, 0, 0, 0] : List Nat) 0 0 0 0 =
      .ok ⟨3, 9, 9, 3⟩
    rw [c5_step pads hlen true 0 0 0 0 0 (by omega)]
    norm_num [nsB, aidB]
    rw [c5_step pads hlen true 0 1 0 0 1 (by omega)]
    norm_num [nsB, aidB]
    rw [c5_step pads hlen true 0 2 0 0 2 (by omega)]
    norm_num [nsB, aidB]
  · show evaluate pubB (rowsB pads) (oracleB pads) false ([0, 1, 0, 1] : List Nat) 0 0 0 0 =
      .ok ⟨2, 0, 0, 4⟩
    rw [c5_step pads hlen false 0 0 0 0 0 (by omega)]
    norm_num [nsB, aidB]
    rw [c5_step pads hlen false 1 1 0 0 1 (by omega)]
    norm_num [nsB, aidB]
    rw [c5_step pads hlen false 0 1 0 0 2 (by omega)]
    norm_num [nsB, aidB]
    rw [c5_step pads hlen false 1 2 0 0 3 (by omega)]
    norm_num [nsB, aidB]
    rw [evaluate]

/-- Witness for C5 with all-zero pads. -/
theorem c5_scenarioB_eval_witness :
    run_evaluate pubB (rowsB (fun _ _ => List.replicate 8 0))
        (oracleB (fun _ _ => List.replicate 8 0)) [0, 0, 0, 0] true = .ok ⟨3, 9, 9, 3⟩
    ∧ run_evaluate pubB (rowsB (fun _ _ => List.replicate 8 0))
        (oracleB (fun _ _ => List.replicate 8 0)) [0, 1, 0, 1] false = .ok ⟨2, 0, 0, 4⟩ :=
  c5_scenarioB_eval (fun _ _ => List.replicate 8 0) (fun _ _ => rfl)

/-! ## `src/client/online/ot_pad_oracle.py` -/

/-- `_pack_info(row_id, col) = b"ZIDS|SEED|row=" || I2OSP(row_id,4) || b"|col=" || I2OSP(col,2)`. -/
def pack_info (row_id col : Nat) : Bytes :=
  [0x5a, 0x49, 0x44, 0x53, 0x7c, 0x53, 0x45, 0x45, 0x44, 0x7c, 0x72, 0x6f, 0x77, 0x3d] ++
    i2osp row_id 4 ++ [0x7c, 0x63, 0x6f, 0x6c, 0x3d] ++ i2osp col 2

/-- The pad a candidate group key yields for `(row_id, col)`:
`seed = PRF(gk, _pack_info(row_id, col), k_bytes)`,
`pad = G_bits(seed, cell_bits, b"PRG|GDFA|cell")`. -/
def candidate_pad (pack : PackingParams) (pub : GDFAPublicHeader) (row_id c : Nat)
    (gk : Bytes) : Bytes :=
  G_bits (hkdf_expand gk (pack_info row_id c) pack.k_bytes) (pub.cell_bytes * 8) gdfaCellLabel

/-- The oracle's validity test for one `(col, gk)` candidate: low `pad_bits`
of the decrypted cell are zero and the decoded next state is in
`[0, num_states)`. -/
def candidate_ok (pub : GDFAPublicHeader) (pack : PackingParams) (enc_row : Bytes)
    (row_id c : Nat) (gk : Bytes) : Bool :=
  let fmt := derive_cell_format pub
  let pt := zipXor ((enc_row.drop (c * pub.cell_bytes)).take pub.cell_bytes)
    (candidate_pad pack pub row_id c gk)
  let v := os2ip pt
  (v &&& ((1 <<< fmt.pad_bits) - 1) == 0) &&
    ((v >>> fmt.pad_bits >>> fmt.aid_bits) &&& ((1 <<< fmt.ns_bits) - 1) < pub.num_states)

/-- One candidate trial of `OTPadOracle.derive_for_row`'s inner loop. -/
def try_gk (pub : GDFAPublicHeader) (pack : PackingParams) (enc_row : Bytes)
    (row_id c : Nat) (gk : Bytes) : Except String (Option Bytes) :=
  (prf_msg gk (pack_info row_id c) pack.k_bytes).map (fun seed =>
    let fmt := derive_cell_format pub
    let pad := G_bits seed (pub.cell_bytes * 8) gdfaCellLabel
    let pt := zipXor ((enc_row.drop (c * pub.cell_bytes)).take pub.cell_bytes) pad
    let v := os2ip pt
    if v &&& ((1 <<< fmt.pad_bits) - 1) ≠ 0 then none
    else if (v >>> fmt.pad_bits >>> fmt.aid_bits) &&& ((1 <<< fmt.ns_bits) - 1) <
        pub.num_states then some pad
    else none)

/-- The `for gk in gks` loop for one column. -/
def tryGks (pub : GDFAPublicHeader) (pack : PackingParams) (enc_row : Bytes)
    (row_id c : Nat) : List Bytes → Except String (Option (Nat × Bytes))
  | [] => .ok none
  | gk :: rest =>
    (try_gk pub pack enc_row row_id c gk).bind (fun r =>
      match r with
      | some pad => .ok (some (c, pad))
      | none => tryGks pub pack enc_row row_id c rest)

/-- The `for c in range(outmax)` loop. -/
def tryCols (pub : GDFAPublicHeader) (pack : PackingParams) (enc_row : Bytes)
    (row_id : Nat) (gks : List Bytes) : List Nat → Except String (Option (Nat × Bytes))
  | [] => .ok none
  | c :: cs =>
    (tryGks pub pack enc_row row_id c gks).bind (fun r =>
      match r with
      | some res => .ok (some res)
      | none => tryCols pub pack enc_row row_id gks cs)

/-- `OTPadOracle.derive_for_row`: first `_derive_cell_format(pub)` (which
raises when `ns_bits + aid_bits > cell_bits`), then the token length
check, then the trial loop. -/
def derive_for_row (pub : GDFAPublicHeader) (pack : PackingParams) (rows : List Bytes)
    (token_source : Nat → Nat → Bytes) (row_id x : Nat) : Except String (Nat × Bytes) :=
  if pub.cell_bytes * 8 < max 1 (bit_length (pub.num_states - 1)) + pub.aid_bits then
    .error "cell_bits too small for ns_bits + aid_bits"
  else
  let token := token_source row_id x
  if token.length ≠ pack.cmax * pack.kprime_bytes then .error "token length mismatch"
  else
    let gks := (List.range pack.cmax).map
      (fun i => (token.drop (i * pack.kprime_bytes)).take pack.kprime_bytes)
    (rowstore_get pub rows row_id).bind (fun enc_row =>
      (tryCols pub pack enc_row row_id gks (List.range pub.outmax)).bind (fun r =>
        match r with
        | some res => .ok res
        | none => .error "no valid (col, pad) found for this row & symbol (invalid token?)"))

theorem try_gk_eq (pub : GDFAPublicHeader) (pack : PackingParams) (enc_row : Bytes)
    (row_id c : Nat) (gk : Bytes) (hkey : gk ≠ []) :
    try_gk pub pack enc_row row_id c gk =
      .ok (if candidate_ok pub pack enc_row row_id c gk
        then some (candidate_pad pack pub row_id c gk) else none) := by
  rw [try_gk, prf_msg, if_neg (by simpa using hkey), exmap_ok]
  set fmt := derive_cell_format pub with hfmt
  set pad := G_bits (hkdf_expand gk (pack_info row_id c) pack.k_bytes) (pub.cell_bytes * 8)
    gdfaCellLabel with hpad
  set v := os2ip (zipXor ((enc_row.drop (c * pub.cell_bytes)).take pub.cell_bytes) pad) with hv
  have hcp : candidate_pad pack pub row_id c gk = pad := rfl
  have hco : candidate_ok pub pack enc_row row_id c gk =
      ((v &&& ((1 <<< fmt.pad_bits) - 1) == 0) &&
        decide ((v >>> fmt.pad_bits >>> fmt.aid_bits) &&& ((1 <<< fmt.ns_bits) - 1) <
          pub.num_states)) := rfl
  rw [hcp, hco]
  by_cases h1 : v &&& ((1 <<< fmt.pad_bits) - 1) = 0
  · by_cases h2 : (v >>> fmt.pad_bits >>> fmt.aid_bits) &&& ((1 <<< fmt.ns_bits) - 1) <
        pub.num_states
    · simp [h1, h2]
    · simp [h1, h2]
  · simp [h1]

theorem tryGks_eq (pub : GDFAPublicHeader) (pack : PackingParams) (enc_row : Bytes)
    (row_id c : Nat) (gks : List Bytes) (h : ∀ gk ∈ gks, gk ≠ []) :
    tryGks pub pack enc_row row_id c gks =
      .ok ((gks.find? (fun gk => candidate_ok pub pack enc_row row_id c gk)).map
        (fun gk => (c, candidate_pad pack pub row_id c gk))) := by
  induction gks with
  | nil => rfl
  | cons gk rest ih =>
    rw [tryGks, try_gk_eq _ _ _ _ _ _ (h gk (by simp)), exbind_ok]
    by_cases hok : candidate_ok pub pack enc_row row_id c gk
    · rw [if_pos hok, List.find?_cons_of_pos _ hok]
      rfl
    · rw [if_neg hok, List.find?_cons_of_neg _ (by simpa using hok)]
      show tryGks pub pack enc_row row_id c rest = _
      exact ih (fun g hg => h g (by simp [hg]))

theorem tryCols_eq (pub : GDFAPublicHeader) (pack : PackingParams) (enc_row : Bytes)
    (row_id : Nat) (gks : List Bytes) (h : ∀ gk ∈ gks, gk ≠ []) (cs : List Nat) :
    tryCols pub pack enc_row row_id gks cs =
      .ok (cs.findSome? (fun c =>
        (gks.find? (fun gk => candidate_ok pub pack enc_row row_id c gk)).map
          (fun gk => (c, candidate_pad pack pub row_id c gk)))) := by
  induction cs with
  | nil => rfl
  | cons c cs ih =>
    rw [tryCols, tryGks_eq _ _ _ _ _ _ h, exbind_ok, List.findSome?_cons]
    cases hfind : (gks.find? (fun gk => candidate_ok pub pack enc_row row_id c gk)).map
        (fun gk => (c, candidate_pad pack pub row_id c gk)) with
    | none =>
      show tryCols pub pack enc_row row_id gks cs = _
      exact ih
    | some res => rfl

theorem gks_chunks_nonempty (token : Bytes) (hlen : token.length = 32) :
    ∀ gk ∈ (List.range 2).map (fun i => (token.drop (i * 16)).take 16), gk ≠ [] := by
  intro gk hgk
  simp only [List.mem_map, List.mem_range] at hgk
  obtain ⟨i, hi, hback⟩ := hgk
  have hglen : gk.length = 16 := by
    rw [← hback, List.length_take, List.length_drop, hlen]
    omega
  intro hnil
  rw [hnil] at hglen
  simp at hglen

/-- **C6.**  `OTPadOracle.derive_for_row` with `cmax = 2`,
`kprime_bytes = 16`, over a header whose cell width fits the format
(`ns_bits + aid_bits ≤ cell_bits`, else `_derive_cell_format` raises its
own error before the token is even fetched): a token whose length differs
from 32 bytes fails with the length-mismatch error; a 32-byte token
proceeds past that check (the result is never the length error); and, for
a valid row, the oracle fails with the invalid-token error exactly when no
(column, candidate-key) pair decrypts the row's cell to a plaintext with
zero low pad bits and an in-range next-state field. -/
theorem c6_derive_for_row_errors
    (pub : GDFAPublicHeader) (pack : PackingParams) (rows : List Bytes)
    (token_source : Nat → Nat → Bytes) (row_id x : Nat)
    (hcmax : pack.cmax = 2) (hkp : pack.kprime_bytes = 16)
    (hfmt_fit : max 1 (bit_length (pub.num_states - 1)) + pub.aid_bits ≤ pub.cell_bytes * 8)
    (hrow : row_id < pub.num_states) :
    ((token_source row_id x).length ≠ 32 →
      derive_for_row pub pack rows token_source row_id x = .error "token length mismatch")
    ∧ ((token_source row_id x).length = 32 →
      derive_for_row pub pack rows token_source row_id x ≠ .error "token length mismatch")
    ∧ ((token_source row_id x).length = 32 →
      (derive_for_row pub pack rows token_source row_id x =
          .error "no valid (col, pad) found for this row & symbol (invalid token?)"
        ↔ ∀ c < pub.outmax,
            ∀ gk ∈ (List.range pack.cmax).map
              (fun i => ((token_source row_id x).drop (i * pack.kprime_bytes)).take
                pack.kprime_bytes),
              candidate_ok pub pack (rows.getD row_id []) row_id c gk = false)) := by
  have hentry : pack.cmax * pack.kprime_bytes = 32 := by rw [hcmax, hkp]
  refine ⟨?_, ?_, ?_⟩
  · intro hne
    rw [derive_for_row, if_neg (by omega), if_pos (by rw [hentry]; exact hne)]
  · intro heq
    rw [derive_for_row, if_neg (by omega), if_neg (by rw [hentry]; omega)]
    rw [rowstore_get, if_neg (by omega), exbind_ok]
    have hne : ∀ gk ∈ (List.range pack.cmax).map
        (fun i => ((token_source row_id x).drop (i * pack.kprime_bytes)).take
          pack.kprime_bytes), gk ≠ [] := by
      rw [hcmax, hkp]
      exact gks_chunks_nonempty _ heq
    rw [tryCols_eq _ _ _ _ _ hne, exbind_ok]
    cases hfs : (List.range pub.outmax).findSome? (fun c =>
        ((((List.range pack.cmax).map
          (fun i => ((token_source row_id x).drop (i * pack.kprime_bytes)).take
            pack.kprime_bytes)).find?
          (fun gk => candidate_ok pub pack (rows.getD row_id []) row_id c gk)).map
            (fun gk => (c, candidate_pad pack pub row_id c gk)))) with
    | none =>
      show (Except.error "no valid (col, pad) found for this row & symbol (invalid token?)" :
        Except String (Nat × Bytes)) ≠ .error "token length mismatch"
      intro hcontra
      have := Except.error.inj hcontra
      exact absurd this (by decide)
    | some res =>
      show (Except.ok res : Except String (Nat × Bytes)) ≠ .error "token length mismatch"
      intro hcontra
      exact Except.noConfusion hcontra
  · intro heq
    rw [derive_for_row, if_neg (by omega), if_neg (by rw [hentry]; omega)]
    rw [rowstore_get, if_neg (by omega), exbind_ok]
    have hne : ∀ gk ∈ (List.range pack.cmax).map
        (fun i => ((token_source row_id x).drop (i * pack.kprime_bytes)).take
          pack.kprime_bytes), gk ≠ [] := by
      rw [hcmax, hkp]
      exact gks_chunks_nonempty _ heq
    rw [tryCols_eq _ _ _ _ _ hne, exbind_ok]
    cases hfs : (List.range pub.outmax).findSome? (fun c =>
        ((((List.range pack.cmax).map
          (fun i => ((token_source row_id x).drop (i * pack.kprime_bytes)).take
            pack.kprime_bytes)).find?
          (fun gk => candidate_ok pub pack (rows.getD row_id []) row_id c gk)).map
            (fun gk => (c, candidate_pad pack pub row_id c gk)))) with
    | none =>
      constructor
      · intro _hres c hc gk hgk
        have hall := List.findSome?_eq_none_iff.mp hfs c (List.mem_range.mpr hc)
        have hfind := Option.map_eq_none'.mp hall
        have := List.find?_eq_none.mp hfind gk hgk
        simpa using this
      · intro _hall
        rfl
    | some res =>
      constructor
      · intro hcontra
        exact absurd hcontra (fun hcontra2 => Except.noConfusion hcontra2)
      · intro hall
        have hnone : (List.range pub.outmax).findSome? (fun c =>
            ((((List.range pack.cmax).map
              (fun i => ((token_source row_id x).drop (i * pack.kprime_bytes)).take
                pack.kprime_bytes)).find?
              (fun gk => candidate_ok pub pack (rows.getD row_id []) row_id c gk)).map
                (fun gk => (c, candidate_pad pack pub row_id c gk)))) = none := by
          rw [List.findSome?_eq_none_iff]
          intro c hcmem
          rw [Option.map_eq_none', List.find?_eq_none]
          intro gk hgk
          have := hall c (List.mem_range.mp hcmem) gk hgk
          simpa using this
        rw [hfs] at hnone
        exact Option.noConfusion hnone

/-- Packing parameters with `cmax = 2`, `kprime_bytes = 16` (Scenario E). -/
def packW : PackingParams := ⟨16, 16, 256, 2, 2, 32, 256⟩

/-- Witness for C6 at a concrete header, empty row store and a 31-byte
token source. -/
theorem c6_derive_for_row_errors_witness :
    (((fun _ _ => List.replicate 31 0 : Nat → Nat → Bytes) 0 0).length ≠ 32 →
      derive_for_row pubB packW [] (fun _ _ => List.replicate 31 0) 0 0 =
        .error "token length mismatch")
    ∧ (((fun _ _ => List.replicate 31 0 : Nat → Nat → Bytes) 0 0).length = 32 →
      derive_for_row pubB packW [] (fun _ _ => List.replicate 31 0) 0 0 ≠
        .error "token length mismatch")
    ∧ (((fun _ _ => List.replicate 31 0 : Nat → Nat → Bytes) 0 0).length = 32 →
      (derive_for_row pubB packW [] (fun _ _ => List.replicate 31 0) 0 0 =
          .error "no valid (col, pad) found for this row & symbol (invalid token?)"
        ↔ ∀ c < pubB.outmax,
            ∀ gk ∈ (List.range packW.cmax).map
              (fun i => (((fun _ _ => List.replicate 31 0 : Nat → Nat → Bytes) 0 0).drop
                (i * packW.kprime_bytes)).take packW.kprime_bytes),
              candidate_ok pubB packW (([] : List Bytes).getD 0 []) 0 c gk = false)) :=
  c6_derive_for_row_errors pubB packW [] (fun _ _ => List.replicate 31 0) 0 0
    (by decide) (by decide) (by decide) (by decide)

/-! ## `src/server/online/ot_response_builder.py` -/

/-- The server-side `RowAlphabet` (256 symbols). -/
structure RowAlphabet256 where
  outmax : Nat
  cmax : Nat
  sym_to_cols : List (List Nat)

/-- The `last = -1; for c in cols: if c <= last: raise` strict-increase
check of `RowAlphabet.sanity_check`. -/
def strictIncFrom : Int → List Nat → Bool
  | _, [] => true
  | last, c :: rest => if (c : Int) ≤ last then false else strictIncFrom (c : Int) rest

/-- `RowAlphabet.sanity_check`: 256 entries; per-symbol column lists are
strictly increasing, bounded by `cmax`, entries in `[0, outmax)`. -/
def RowAlphabet256.sane (ra : RowAlphabet256) : Prop :=
  ra.sym_to_cols.length = 256 ∧
    ∀ cols ∈ ra.sym_to_cols, cols.length ≤ ra.cmax ∧ strictIncFrom (-1) cols = true ∧
      ∀ c ∈ cols, c < ra.outmax

instance (ra : RowAlphabet256) : Decidable ra.sane :=
  inferInstanceAs (Decidable (ra.sym_to_cols.length = 256 ∧
    ∀ cols ∈ ra.sym_to_cols, cols.length ≤ ra.cmax ∧ strictIncFrom (-1) cols = true ∧
      ∀ c ∈ cols, c < ra.outmax))

structure RowOTPlan where
  row_id : Nat
  table_256 : List Bytes
  label : Bytes
  entry_len : Nat

structure RowOTSecrets where
  gk_by_col : List Bytes

/-- `build_row_ot_plan`: fresh group keys (`gkrand c` models
`os.urandom(kprime_bytes)` for column `c`) and fresh random padding chunks
(`padrand x j` models the `j`-th padding draw for symbol `x`). -/
def build_row_ot_plan (row_id : Nat) (pack : PackingParams) (ra : RowAlphabet256)
    (gkrand : Nat → Bytes) (padrand : Nat → Nat → Bytes) : RowOTPlan × RowOTSecrets :=
  let kprime_bytes := pack.kprime_bytes
  let entry_len := ra.cmax * kprime_bytes
  let gk_by_col := (List.range ra.outmax).map gkrand
  let table := (List.range 256).map (fun x =>
    let cols := ra.sym_to_cols.getD x []
    let chunks := cols.map (fun c => gk_by_col.getD c []) ++
      (List.range (ra.cmax - cols.length)).map (fun j => padrand x j)
    chunks.flatten)
  (⟨row_id, table, [0x4f, 0x54, 0x32, 0x35, 0x36, 0x7c, 0x72, 0x6f, 0x77, 0x3d] ++
      i2osp row_id 4, entry_len⟩,
    ⟨gk_by_col⟩)

/-- **C7.**  For a valid `RowAlphabet` and fresh randomness of the right
width, `build_row_ot_plan` returns a table of exactly 256 entries, each of
length exactly `cmax * kprime_bytes`, and entry `x` is the concatenation of
the group keys `GK[row_id][c]` for `c ∈ sym_to_cols[x]` (a strictly
increasing column list) followed by the freshly sampled random
`kprime_bytes` blocks up to `cmax` chunks total. -/
theorem c7_build_row_ot_plan_table (row_id : Nat) (pack : PackingParams)
    (ra : RowAlphabet256) (gkrand : Nat → Bytes) (padrand : Nat → Nat → Bytes)
    (hra : ra.sane)
    (hgk : ∀ c, (gkrand c).length = pack.kprime_bytes)
    (hpad : ∀ x j, (padrand x j).length = pack.kprime_bytes) :
    (build_row_ot_plan row_id pack ra gkrand padrand).1.table_256.length = 256
    ∧ (build_row_ot_plan row_id pack ra gkrand padrand).1.entry_len =
        ra.cmax * pack.kprime_bytes
    ∧ ∀ x, x < 256 → ∀ entry cols,
        entry = (build_row_ot_plan row_id pack ra gkrand padrand).1.table_256.getD x [] →
        cols = ra.sym_to_cols.getD x [] →
        entry.length = ra.cmax * pack.kprime_bytes
        ∧ strictIncFrom (-1) cols = true
        ∧ entry.take (cols.length * pack.kprime_bytes) =
            (cols.map (fun c =>
              (build_row_ot_plan row_id pack ra gkrand padrand).2.gk_by_col.getD c [])).flatten
        ∧ entry.drop (cols.length * pack.kprime_bytes) =
            ((List.range (ra.cmax - cols.length)).map (fun j => padrand x j)).flatten := by
  obtain ⟨hlen256, hcols⟩ := hra
  refine ⟨by simp [build_row_ot_plan], rfl, ?_⟩
  intro x hx entry cols hentry hcols_eq
  have hcols_mem : cols ∈ ra.sym_to_cols := by
    rw [hcols_eq]
    exact getD_mem_of_lt _ _ _ (by omega)
  obtain ⟨hclen, hchain, hcbound⟩ := hcols cols hcols_mem
  have htab : (build_row_ot_plan row_id pack ra gkrand padrand).1.table_256 =
      (List.range 256).map (fun y =>
        ((ra.sym_to_cols.getD y []).map
            (fun c => ((List.range ra.outmax).map gkrand).getD c []) ++
          (List.range (ra.cmax - (ra.sym_to_cols.getD y []).length)).map
            (fun j => padrand y j)).flatten) := rfl
  have hentry2 : entry =
      ((cols.map (fun c => ((List.range ra.outmax).map gkrand).getD c [])) ++
        (List.range (ra.cmax - cols.length)).map (fun j => padrand x j)).flatten := by
    rw [hentry, hcols_eq, htab, getD_map_range _ _ _ _ hx]
  have hgklen : ∀ b ∈ cols.map (fun c => ((List.range ra.outmax).map gkrand).getD c []),
      b.length = pack.kprime_bytes := by
    intro b hb
    obtain ⟨c, hcmem, hback⟩ := List.mem_map.mp hb
    rw [← hback, getD_map_range _ _ _ _ (hcbound c hcmem), hgk]
  have hpadlen : ∀ b ∈ (List.range (ra.cmax - cols.length)).map (fun j => padrand x j),
      b.length = pack.kprime_bytes := by
    intro b hb
    obtain ⟨j, -, hback⟩ := List.mem_map.mp hb
    rw [← hback, hpad]
  have hfl1 : (cols.map (fun c =>
      ((List.range ra.outmax).map gkrand).getD c [])).flatten.length =
      pack.kprime_bytes * cols.length := by
    rw [flatten_const_length _ _ hgklen, List.length_map]
  have hfl2 : ((List.range (ra.cmax - cols.length)).map
      (fun j => padrand x j)).flatten.length =
      pack.kprime_bytes * (ra.cmax - cols.length) := by
    rw [flatten_const_length _ _ hpadlen, List.length_map, List.length_range]
  refine ⟨?_, hchain, ?_, ?_⟩
  · rw [hentry2, List.flatten_append, List.length_append, hfl1, hfl2, ← Nat.mul_add,
      show cols.length + (ra.cmax - cols.length) = ra.cmax by omega, Nat.mul_comm]
  · rw [hentry2, List.flatten_append,
      List.take_left' (by rw [hfl1]; ring)]
    rfl
  · rw [hentry2, List.flatten_append,
      List.drop_left' (by rw [hfl1]; ring)]

/-- Singleton row alphabet (`outmax = 1`, `cmax = 1`, all symbols in
column 0) used by the C7 witness. -/
def raW : RowAlphabet256 := ⟨1, 1, List.replicate 256 [0]⟩

set_option maxRecDepth 100000 in
/-- Witness for C7 at a concrete alphabet and randomness. -/
theorem c7_build_row_ot_plan_table_witness :
    (build_row_ot_plan 0 packW raW (fun _ => List.replicate 16 1)
      (fun _ _ => List.replicate 16 2)).1.table_256.length = 256
    ∧ (build_row_ot_plan 0 packW raW (fun _ => List.replicate 16 1)
        (fun _ _ => List.replicate 16 2)).1.entry_len = raW.cmax * packW.kprime_bytes
    ∧ ∀ x, x < 256 → ∀ entry cols,
        entry = (build_row_ot_plan 0 packW raW (fun _ => List.replicate 16 1)
          (fun _ _ => List.replicate 16 2)).1.table_256.getD x [] →
        cols = raW.sym_to_cols.getD x [] →
        entry.length = raW.cmax * packW.kprime_bytes
        ∧ strictIncFrom (-1) cols = true
        ∧ entry.take (cols.length * packW.kprime_bytes) =
            (cols.map (fun c =>
              (build_row_ot_plan 0 packW raW (fun _ => List.replicate 16 1)
                (fun _ _ => List.replicate 16 2)).2.gk_by_col.getD c [])).flatten
        ∧ entry.drop (cols.length * packW.kprime_bytes) =
            ((List.range (raW.cmax - cols.length)).map
              (fun j => (fun _ _ => List.replicate 16 2 : Nat → Nat → Bytes) x j)).flatten :=
  c7_build_row_ot_plan_table 0 packW raW (fun _ => List.replicate 16 1)
    (fun _ _ => List.replicate 16 2) (by decide) (fun c => rfl) (fun x j => rfl)

/-! ## `src/client/io/gdfa_loader.py` — container writer / reader

`_MAGIC = b"ZIDSv1\0"` is SEVEN bytes (`Z I D S v 1 NUL`), while the
loader compares `data[:8]` — an eight-byte slice whenever
`len(data) >= 12` — against it.  A bytes object of length 8 is never equal
to one of length 7, so the magic check of `load_gdfa_container` rejects
every input, including containers produced by `write_gdfa_container`. -/

/-- `_MAGIC = b"ZIDSv1\0"` (7 bytes). -/
def containerMagic : Bytes := [0x5a, 0x49, 0x44, 0x53, 0x76, 0x31, 0x00]

/-- ASCII decimal digits of `n`, most significant first (fuel-based). -/
def decDigits : Nat → Nat → Bytes
  | 0, _ => []
  | fuel + 1, n => if n < 10 then [48 + n] else decDigits fuel (n / 10) ++ [48 + n % 10]

/-- `json` rendering of an integer. -/
def jnum (n : Nat) : Bytes := decDigits (n + 1) n

/-- `json` rendering of the comma-separated items of an integer array. -/
def jarrBody : List Nat → Bytes
  | [] => []
  | [n] => jnum n
  | n :: rest => jnum n ++ [0x2c] ++ jarrBody rest

/-- `json` rendering of an integer array. -/
def jarr (l : List Nat) : Bytes := [0x5b] ++ jarrBody l ++ [0x5d]

/-- `json.dumps(header, separators=(",", ":"))` for the writer's header
object, keys in the writer's insertion order. -/
def encodeHeader (pub : GDFAPublicHeader) : Bytes :=
  [0x7b] ++
  [0x22, 0x61, 0x6c, 0x70, 0x68, 0x61, 0x62, 0x65, 0x74, 0x5f, 0x73, 0x69, 0x7a, 0x65, 0x22,
    0x3a] ++ jnum pub.alphabet_size ++ [0x2c] ++
  [0x22, 0x6f, 0x75, 0x74, 0x6d, 0x61, 0x78, 0x22, 0x3a] ++ jnum pub.outmax ++ [0x2c] ++
  [0x22, 0x63, 0x6d, 0x61, 0x78, 0x22, 0x3a] ++ jnum pub.cmax ++ [0x2c] ++
  [0x22, 0x6e, 0x75, 0x6d, 0x5f, 0x73, 0x74, 0x61, 0x74, 0x65, 0x73, 0x22, 0x3a] ++
    jnum pub.num_states ++ [0x2c] ++
  [0x22, 0x73, 0x74, 0x61, 0x72, 0x74, 0x5f, 0x72, 0x6f, 0x77, 0x22, 0x3a] ++
    jnum pub.start_row ++ [0x2c] ++
  [0x22, 0x70, 0x65, 0x72, 0x6d, 0x75, 0x74, 0x61, 0x74, 0x69, 0x6f, 0x6e, 0x22, 0x3a] ++
    jarr pub.permutation ++ [0x2c] ++
  [0x22, 0x63, 0x65, 0x6c, 0x6c, 0x5f, 0x62, 0x79, 0x74, 0x65, 0x73, 0x22, 0x3a] ++
    jnum pub.cell_bytes ++ [0x2c] ++
  [0x22, 0x72, 0x6f, 0x77, 0x5f, 0x62, 0x79, 0x74, 0x65, 0x73, 0x22, 0x3a] ++
    jnum pub.row_bytes ++ [0x2c] ++
  [0x22, 0x61, 0x69, 0x64, 0x5f, 0x62, 0x69, 0x74, 0x73, 0x22, 0x3a] ++ jnum pub.aid_bits ++
  [0x7d]

/-- `write_gdfa_container`: validate the rows, then emit
`magic || u32(len(header)) || header_json || rows || sha256(rows)`
(`struct.pack(">I", ...)` raises when the length exceeds 32 bits). -/
def write_gdfa_container (pub : GDFAPublicHeader) (rows : List Bytes) :
    Except String Bytes :=
  if rows.length ≠ pub.num_states then .error "rows length must equal num_states"
  else if ¬ (rows.all (fun r => r.length == pub.row_bytes)) then
    .error "row length mismatch"
  else if 2 ^ 32 ≤ (encodeHeader pub).length then .error "struct.error: argument out of range"
  else .ok (containerMagic ++ i2osp (encodeHeader pub).length 4 ++ encodeHeader pub ++
    rows.flatten ++ sha256 rows.flatten)

/-- The magic gate of `load_gdfa_container`
(`if len(data) < 12 or data[:8] != _MAGIC: raise`), with the remainder of
the loader (header parsing, length checks, SHA-256 verification, row
splitting) abstracted as an arbitrary continuation `k` — the theorem below
holds for all of them. -/
def load_gdfa_container_gate
    (k : Bytes → Except String (GDFAPublicHeader × List Bytes)) (data : Bytes) :
    Except String (GDFAPublicHeader × List Bytes) :=
  if data.length < 12 ∨ data.take 8 ≠ containerMagic then
    .error "invalid container: bad magic or too short"
  else k data

/-- **C8.**  The claimed writer/reader round-trip fails on the code:
`_MAGIC` is 7 bytes but the loader compares the 8-byte slice `data[:8]`
against it, so whenever `write_gdfa_container` succeeds, loading the
written bytes raises the bad-magic error (for every possible continuation
of the loader after the magic check) instead of returning the header and
rows. -/
theorem c8_container_roundtrip_rejected
    (pub : GDFAPublicHeader) (rows : List Bytes) (data : Bytes)
    (k : Bytes → Except String (GDFAPublicHeader × List Bytes))
    (hw : write_gdfa_container pub rows = .ok data) :
    load_gdfa_container_gate k data = .error "invalid container: bad magic or too short" := by
  rw [load_gdfa_container_gate]
  by_cases hlen : data.length < 12
  · rw [if_pos (Or.inl hlen)]
  · rw [if_pos (Or.inr ?_)]
    intro hcontra
    have hlen8 := congrArg List.length hcontra
    rw [List.length_take] at hlen8
    have : containerMagic.length = 7 := rfl
    omega

set_option maxRecDepth 100000 in
/-- Witness for C8: a concrete header and row set that
`write_gdfa_container` accepts, whose output the loader rejects. -/
theorem c8_container_roundtrip_rejected_witness :
    load_gdfa_container_gate (fun _ => .error "unreachable")
      (containerMagic ++ i2osp (encodeHeader pubB).length 4 ++ encodeHeader pubB ++
        (List.replicate 4 (List.replicate 16 0)).flatten ++
        sha256 (List.replicate 4 (List.replicate 16 0)).flatten) =
      .error "invalid container: bad magic or too short" :=
  c8_container_roundtrip_rejected pubB (List.replicate 4 (List.replicate 16 0)) _
    (fun _ => .error "unreachable") (by rfl)

/-! ## DDH group and base 1-of-2 OT

`src/common/crypto/ddh_group.py` is not part of the sources; `DDHGroup` is
modelled from the spec (section 4.2): a prime-order subgroup `(p, q, g)` of
`Z_p^*` with `q | p-1`, `g` of order `q`, modular exponentiation and
modular inverse, and random exponents drawn from `Z_q` (passed in as
parameters). -/

/-- Modelled from the spec: the DDH group parameters `(p, q, g)` of
`ddh_group.py` (missing from the sources). -/
structure DDHGroup where
  p : Nat
  q : Nat
  g : Nat

/-- Modelled from the spec: `DDHGroup.power`, modular exponentiation. -/
def DDHGroup.power (G : DDHGroup) (x e : Nat) : Nat := x ^ e % G.p

/-- Modelled from the spec: `DDHGroup.inverse`, the inverse in `Z_p^*`
(for prime `p` computed as `x^(p-2) mod p`, by Fermat's little theorem). -/
def ddh_inverse (p x : Nat) : Nat := x ^ (p - 2) % p

theorem ddh_inverse_mul (p x : Nat) (hp : p.Prime) (hx : ¬ p ∣ x) :
    x * ddh_inverse p x % p = 1 := by
  have hco : Nat.Coprime x p := ((Nat.Prime.coprime_iff_not_dvd hp).mpr hx).symm
  have h21 : p - 2 + 1 = p - 1 := by have := hp.two_le; omega
  have heuler : x ^ (p - 1) % p = 1 % p := by
    have h := Nat.ModEq.pow_totient hco
    rw [Nat.totient_prime hp] at h
    exact h
  rw [ddh_inverse, Nat.mul_mod, Nat.mod_mod_of_dvd _ dvd_rfl, ← Nat.mul_mod, ← pow_succ',
    h21, heuler, Nat.mod_eq_of_lt hp.one_lt]

/-! ### `src/common/ot/base_ot2/ddh_ot.py` -/

/-- `b"OT2|m0"`. -/
def otM0Label : Bytes := [0x4f, 0x54, 0x32, 0x7c, 0x6d, 0x30]

/-- `b"OT2|m1"`. -/
def otM1Label : Bytes := [0x4f, 0x54, 0x32, 0x7c, 0x6d, 0x31]

/-- `DDHOTReceiver.generate_B`: `B = g^b` for choice 0, `A * g^b` for
choice 1 (mod `p`). -/
def ddh_generate_B (G : DDHGroup) (A b choice_bit : Nat) : Nat :=
  if choice_bit = 0 then G.g ^ b % G.p else A * (G.g ^ b % G.p) % G.p

/-- `K.to_bytes(length, "big")`: Python raises `OverflowError: int too big
to convert` when the value does not fit in `length` bytes. -/
def to_bytes_be (x length : Nat) : Except String Bytes :=
  if 256 ^ length ≤ x then .error "int too big to convert"
  else .ok (i2osp x length)

theorem to_bytes_be_ok (x length : Nat) (h : x < 256 ^ length) :
    to_bytes_be x length = .ok (i2osp x length) := by
  rw [to_bytes_be, if_neg (by omega)]

/-- `DDHOTSender.respond`: validate `B`, derive `K_0 = B^a`,
`K_1 = (B * A^{-1})^a`, encode each as `ceil(q.bit_length()/8)` bytes
(`K.to_bytes` overflows when a key exceeds that width), pad with
`prf_labeled(K_b, b"OT2|m_b", len)` and mask the two messages. -/
def ddh_respond (G : DDHGroup) (a B : Nat) (m0 m1 : Bytes) :
    Except String (Bytes × Bytes) :=
  if ¬ (1 < B ∧ B < G.p) then .error "Invalid public key B"
  else if B ^ G.q % G.p ≠ 1 then .error "B not in prime-order subgroup"
  else if m0.length ≠ m1.length then .error "Messages must be of the same length"
  else
    (to_bytes_be (B ^ a % G.p) ((bit_length G.q + 7) / 8)).bind (fun K0b =>
      (to_bytes_be ((B * ddh_inverse G.p (G.g ^ a % G.p) % G.p) ^ a % G.p)
        ((bit_length G.q + 7) / 8)).bind (fun K1b =>
        (prf_labeled K0b otM0Label m0.length).bind (fun pad0 =>
          (prf_labeled K1b otM1Label m1.length).map (fun pad1 =>
            (zipXor m0 pad0, zipXor m1 pad1)))))

/-- `DDHOTReceiver.recover`: `K = A^b`, encode as `ceil(q.bit_length()/8)`
bytes (same `to_bytes` overflow), unmask the chosen ciphertext. -/
def ddh_recover (G : DDHGroup) (b A choice_bit : Nat) (c0 c1 : Bytes) :
    Except String Bytes :=
  (to_bytes_be (A ^ b % G.p) ((bit_length G.q + 7) / 8)).bind (fun Kb =>
    (prf_labeled Kb
      (if choice_bit = 0 then otM0Label else otM1Label)
      (if choice_bit = 0 then c0 else c1).length).map
      (fun pad => zipXor (if choice_bit = 0 then c0 else c1) pad))

theorem i2osp_ne_nil (x len : Nat) (h : 0 < len) : i2osp x len ≠ [] := by
  intro hnil
  have hl := i2osp_length x len
  rw [hnil] at hl
  simp at hl
  omega

theorem bit_length_pos (q : Nat) (hq : 0 < q) : 0 < bit_length q := by
  by_contra h
  have h0 : bit_length q = 0 := by omega
  have h1 := lt_two_pow_bit_length q
  rw [h0, Nat.pow_zero] at h1
  omega

/-- The pad `prf_labeled` derives from a shared key `K` in the base OT
(`b"PRF|"` is prepended by `prf_labeled` itself). -/
def ot2_pad (G : DDHGroup) (K : Nat) (label : Bytes) (n : Nat) : Bytes :=
  hkdf_expand (i2osp K ((bit_length G.q + 7) / 8)) ([0x50, 0x52, 0x46, 0x7c] ++ label) n

theorem ot2_pad_length (G : DDHGroup) (K : Nat) (label : Bytes) (n : Nat) :
    (ot2_pad G K label n).length = n := hkdf_expand_length _ _ _

theorem prf_labeled_ot2 (G : DDHGroup) (hq : 0 < G.q) (K : Nat) (label : Bytes) (n : Nat) :
    prf_labeled (i2osp K ((bit_length G.q + 7) / 8)) label n = .ok (ot2_pad G K label n) := by
  rw [prf_labeled, prf_msg,
    if_neg (by rw [i2osp_length]; have := bit_length_pos G.q hq; omega), ot2_pad]

/-- Correctness of the base 1-of-2 OT: when the receiver's `B` passes the
sender's validation, `respond` succeeds and `recover` returns exactly
`m_σ`. -/
theorem ddh_ot_correct (G : DDHGroup) (hp : G.p.Prime) (hq : 0 < G.q)
    (hgq : G.g ^ G.q % G.p = 1) (hgnd : ¬ G.p ∣ G.g)
    (hfit : G.p ≤ 256 ^ ((bit_length G.q + 7) / 8))
    (a b choice_bit : Nat) (hbit : choice_bit < 2)
    (m0 m1 : Bytes) (hlen : m0.length = m1.length)
    (hB1 : 1 < ddh_generate_B G (G.g ^ a % G.p) b choice_bit) :
    ∃ c0 c1 : Bytes,
      ddh_respond G a (ddh_generate_B G (G.g ^ a % G.p) b choice_bit) m0 m1 = .ok (c0, c1)
      ∧ ddh_recover G b (G.g ^ a % G.p) choice_bit c0 c1 =
          .ok (if choice_bit = 0 then m0 else m1) := by
  have hp0 : 0 < G.p := hp.pos
  have hp1 : 1 < G.p := hp.one_lt
  have hkey_fit : ∀ x : Nat, x % G.p < 256 ^ ((bit_length G.q + 7) / 8) := fun x =>
    lt_of_lt_of_le (Nat.mod_lt _ hp0) hfit
  have hgq_pow : ∀ e : Nat, (G.g ^ e % G.p) ^ G.q % G.p = 1 := by
    intro e
    rw [← Nat.pow_mod, ← Nat.pow_mul, Nat.mul_comm e G.q, Nat.pow_mul, Nat.pow_mod, hgq,
      Nat.one_pow, Nat.mod_eq_of_lt hp1]
  -- the receiver's key is g^(a*b) mod p
  have hKR : (G.g ^ a % G.p) ^ b % G.p = G.g ^ (a * b) % G.p := by
    rw [← Nat.pow_mod, ← Nat.pow_mul]
  interval_cases choice_bit
  · -- choice 0: B = g^b mod p
    have hBdef : ddh_generate_B G (G.g ^ a % G.p) b 0 = G.g ^ b % G.p := by
      rw [ddh_generate_B, if_pos rfl]
    rw [hBdef] at hB1 ⊢
    have hBp : G.g ^ b % G.p < G.p := Nat.mod_lt _ hp0
    have hK0 : (G.g ^ b % G.p) ^ a % G.p = G.g ^ (a * b) % G.p := by
      rw [← Nat.pow_mod, ← Nat.pow_mul, Nat.mul_comm b a]
    refine ⟨zipXor m0 (ot2_pad G (G.g ^ (a * b) % G.p) otM0Label m0.length),
      zipXor m1 (ot2_pad G (((G.g ^ b % G.p) * ddh_inverse G.p (G.g ^ a % G.p) % G.p) ^ a
        % G.p) otM1Label m1.length), ?_, ?_⟩
    · rw [ddh_respond, if_neg (not_not_intro ⟨hB1, hBp⟩),
        if_neg (not_not_intro (hgq_pow b)), if_neg (not_not_intro hlen),
        hK0, to_bytes_be_ok _ _ (hkey_fit _), to_bytes_be_ok _ _ (hkey_fit _)]
      simp only [exbind_ok]
      rw [prf_labeled_ot2 G hq, prf_labeled_ot2 G hq]
      rfl
    · have hlen0 : m0.length = (ot2_pad G (G.g ^ (a * b) % G.p) otM0Label m0.length).length :=
        (ot2_pad_length G _ otM0Label m0.length).symm
      rw [ddh_recover]
      simp only [reduceIte]
      rw [hKR, to_bytes_be_ok _ _ (hkey_fit _)]
      simp only [exbind_ok]
      rw [zipXor_length, ot2_pad_length, Nat.min_self, prf_labeled_ot2 G hq]
      simp only [exmap_ok]
      rw [zipXor_self_cancel m0 _ hlen0]
  · -- choice 1: B = A * g^b mod p
    have hBdef : ddh_generate_B G (G.g ^ a % G.p) b 1
        = (G.g ^ a % G.p) * (G.g ^ b % G.p) % G.p := by
      rw [ddh_generate_B, if_neg (by omega)]
    rw [hBdef] at hB1 ⊢
    have hBp : (G.g ^ a % G.p) * (G.g ^ b % G.p) % G.p < G.p := Nat.mod_lt _ hp0
    have hBq : ((G.g ^ a % G.p) * (G.g ^ b % G.p) % G.p) ^ G.q % G.p = 1 := by
      rw [← Nat.pow_mod, Nat.mul_pow, Nat.mul_mod, hgq_pow a, hgq_pow b, Nat.mul_one,
        Nat.mod_eq_of_lt hp1]
    have hAnd : ¬ G.p ∣ (G.g ^ a % G.p) := by
      intro hdvd
      have hlt : G.g ^ a % G.p < G.p := Nat.mod_lt _ hp0
      have h0 : G.g ^ a % G.p = 0 := Nat.eq_zero_of_dvd_of_lt hdvd hlt
      exact hgnd (hp.dvd_of_dvd_pow (Nat.dvd_of_mod_eq_zero h0))
    have hinv := ddh_inverse_mul G.p (G.g ^ a % G.p) hp hAnd
    have hBinv : ((G.g ^ a % G.p) * (G.g ^ b % G.p) % G.p) * ddh_inverse G.p (G.g ^ a % G.p)
        % G.p = G.g ^ b % G.p := by
      rw [Nat.mod_mul_mod, Nat.mul_comm (G.g ^ a % G.p) (G.g ^ b % G.p), Nat.mul_assoc,
        Nat.mul_mod (G.g ^ b % G.p), hinv, Nat.mul_one, Nat.mod_mod_of_dvd _ dvd_rfl,
        Nat.mod_mod_of_dvd _ dvd_rfl]
    have hK1 : (((G.g ^ a % G.p) * (G.g ^ b % G.p) % G.p) * ddh_inverse G.p (G.g ^ a % G.p)
        % G.p) ^ a % G.p = G.g ^ (a * b) % G.p := by
      rw [hBinv, ← Nat.pow_mod, ← Nat.pow_mul, Nat.mul_comm b a]
    refine ⟨zipXor m0 (ot2_pad G ((((G.g ^ a % G.p) * (G.g ^ b % G.p) % G.p)) ^ a % G.p)
        otM0Label m0.length),
      zipXor m1 (ot2_pad G (G.g ^ (a * b) % G.p) otM1Label m1.length), ?_, ?_⟩
    · rw [ddh_respond, if_neg (not_not_intro ⟨hB1, hBp⟩), if_neg (not_not_intro hBq),
        if_neg (not_not_intro hlen), hK1, to_bytes_be_ok _ _ (hkey_fit _),
        to_bytes_be_ok _ _ (hkey_fit _)]
      simp only [exbind_ok]
      rw [prf_labeled_ot2 G hq, prf_labeled_ot2 G hq]
      rfl
    · have hlen1 : m1.length = (ot2_pad G (G.g ^ (a * b) % G.p) otM1Label m1.length).length :=
        (ot2_pad_length G _ otM1Label m1.length).symm
      rw [ddh_recover]
      simp only [if_neg Nat.one_ne_zero]
      rw [hKR, to_bytes_be_ok _ _ (hkey_fit _)]
      simp only [exbind_ok]
      rw [zipXor_length, ot2_pad_length, Nat.min_self, prf_labeled_ot2 G hq]
      simp only [exmap_ok]
      rw [zipXor_self_cancel m1 _ hlen1]

/-! ### `src/common/ot/ot_1ofm.py` -/

/-- `PayloadItem = Union[int, bytes]`. -/
inductive OTValue where
  | int (x : Nat)
  | bytes (b : Bytes)
deriving DecidableEq

/-- `SEED_LEN = 32`. -/
def SEED_LEN : Nat := 32

/-- `q_byte_len` from `encode.py`: `(q.bit_length() + 7) // 8`. -/
def q_byte_len (q : Nat) : Nat := (bit_length q + 7) / 8

/-- `_bit_at_lsb(i, j)`: the `j`-th bit of `i`, LSB first. -/
def bit_at_lsb (i j : Nat) : Nat := (i >>> j) &&& 1

/-- `info_j = label || b"|j=" || I2OSP(j,2) || b"|sid=" || sid`. -/
def ot1ofm_info (label : Bytes) (j : Nat) (sid : Bytes) : Bytes :=
  label ++ [0x7c, 0x6a, 0x3d] ++ i2osp j 2 ++ [0x7c, 0x73, 0x69, 0x64, 0x3d] ++ sid

/-- The XOR-accumulation loop shared by the sender (per option `t`) and the
chooser: starting from `pad`, XOR in `prf_msg(seed, info_j, entry_len)` for
each listed seed, with `j` counting up from the given start. -/
def ot1ofm_pad_go (label sid : Bytes) (entry_len j : Nat) (pad : Bytes) :
    List Bytes → Except String Bytes
  | [] => .ok pad
  | seed :: rest =>
    (prf_msg seed (ot1ofm_info label j sid) entry_len).bind (fun block =>
      ot1ofm_pad_go label sid entry_len (j + 1) (zipXor pad block) rest)

/-- Aggregate pad: starting from `bytearray(entry_len)`, XOR in the per-bit
PRF blocks over the given seed list. -/
def ot1ofm_pad (label sid : Bytes) (entry_len : Nat) (seeds : List Bytes) :
    Except String Bytes :=
  ot1ofm_pad_go label sid entry_len 0 (List.replicate entry_len 0) seeds

/-- The per-bit seeds `s_{bit_j(t)}` used for option `t`
(`seed1[j] if bit else seed0[j]`). -/
def ot1ofm_seeds (seed0 seed1 : List Bytes) (l t : Nat) : List Bytes :=
  (List.range l).map (fun j =>
    if bit_at_lsb t j = 0 then seed0.getD j [] else seed1.getD j [])

/-- The state `OT1ofmSender.__init__` builds: the mode, the fixed entry
length, `m`, `ℓ = (m-1).bit_length()`, the encoded plaintexts, the per-bit
seed pairs, the `sid`, the `label` and the precomputed ciphertexts. -/
structure OT1ofmSender where
  mode_int : Bool
  entry_len : Nat
  m : Nat
  l : Nat
  plain : List Bytes
  seed0 : List Bytes
  seed1 : List Bytes
  sid : Bytes
  label : Bytes
  ciphertexts : List Bytes

/-- INT-mode validation and encoding of one payload item: an `int` in
`1..q-1`, encoded as `q_bytes` big-endian bytes. -/
def ot1ofm_encode_int (q q_bytes : Nat) : OTValue → Except String Bytes
  | .int x =>
    if 1 ≤ x ∧ x < q then .ok (i2osp x q_bytes)
    else .error "INT payload elements must be 1..q-1 (Z_q^*)"
  | .bytes _ => .error "INT payload elements must be 1..q-1 (Z_q^*)"

/-- BYTES-mode validation of one payload item: bytes of the fixed entry
length. -/
def ot1ofm_check_bytes (entry_len : Nat) : OTValue → Except String Bytes
  | .bytes b =>
    if b.length = entry_len then .ok b
    else .error "All BYTES payload entries must have identical length"
  | .int _ => .error "All BYTES payload entries must have identical length"

/-- One precomputed ciphertext: `ct_t = xor_bytes(plain[t], pad_t)` with
`pad_t` aggregated over the sender-side seed choices for `t`. -/
def ot1ofm_ct (label sid : Bytes) (entry_len : Nat) (seed0 seed1 : List Bytes)
    (l : Nat) (plain : List Bytes) (t : Nat) : Except String Bytes :=
  (ot1ofm_pad label sid entry_len (ot1ofm_seeds seed0 seed1 l t)).bind (fun pad =>
    xor_bytes (plain.getD t []) pad)

/-- `OT1ofmSender.__init__`: non-empty payload, mode detection from the
first item, validation/encoding of the payload, `ℓ = (m-1).bit_length()`,
and the precomputed ciphertexts (the sampled randomness — the per-bit seed
pairs and the `sid` — is passed in as parameters). -/
def ot1ofm_init (G : DDHGroup) (payload : List OTValue) (label sid : Bytes)
    (seed0 seed1 : List Bytes) : Except String OT1ofmSender :=
  match payload with
  | [] => .error "payload must be non-empty"
  | first :: rest =>
    match first with
    | .int _ =>
      ((first :: rest).mapM (ot1ofm_encode_int G.q (q_byte_len G.q))).bind (fun plain =>
        ((List.range (first :: rest).length).mapM
            (ot1ofm_ct label sid (q_byte_len G.q) seed0 seed1
              (bit_length ((first :: rest).length - 1)) plain)).map (fun cts =>
          ⟨true, q_byte_len G.q, (first :: rest).length,
            bit_length ((first :: rest).length - 1), plain, seed0, seed1, sid, label, cts⟩))
    | .bytes b =>
      if b.length = 0 then .error "BYTES payload entries must be non-empty and fixed-length"
      else
        ((first :: rest).mapM (ot1ofm_check_bytes b.length)).bind (fun plain =>
          ((List.range (first :: rest).length).mapM
              (ot1ofm_ct label sid b.length seed0 seed1
                (bit_length ((first :: rest).length - 1)) plain)).map (fun cts =>
            ⟨false, b.length, (first :: rest).length,
              bit_length ((first :: rest).length - 1), plain, seed0, seed1, sid, label, cts⟩))

/-- The `ℓ` base-OT sessions run by the chooser: per bit position `j`, a
fresh Naor–Pinkas 1-of-2 OT over the seed pair `(seed0[j], seed1[j])` with
choice bit `bit_j(index)`, followed by the defensive `SEED_LEN` check (the
per-session secret exponents are passed in as parameters). -/
def ot1ofm_learn (G : DDHGroup) (S : OT1ofmSender) (aexps bexps : List Nat)
    (index : Nat) : Except String (List Bytes) :=
  (List.range S.l).mapM (fun j =>
    (ddh_respond G (aexps.getD j 0)
        (ddh_generate_B G (G.g ^ aexps.getD j 0 % G.p) (bexps.getD j 0) (bit_at_lsb index j))
        (S.seed0.getD j []) (S.seed1.getD j [])).bind (fun c =>
      (ddh_recover G (bexps.getD j 0) (G.g ^ aexps.getD j 0 % G.p) (bit_at_lsb index j)
          c.1 c.2).bind (fun seed =>
        if seed.length ≠ SEED_LEN then .error "Recovered seed has unexpected length"
        else .ok seed)))

/-- `make_chooser(group, label, service)`'s inner `choose(_, index)`:
range-check the index, learn the per-bit seeds via `ℓ` base OTs,
reconstruct the pad, decrypt the chosen ciphertext, and decode according
to the service mode. -/
def ot1ofm_choose (G : DDHGroup) (label : Bytes) (S : OT1ofmSender)
    (aexps bexps : List Nat) (index : Nat) : Except String OTValue :=
  if ¬ index < S.m then .error "index out of range"
  else
    (ot1ofm_learn G S aexps bexps index).bind (fun learned =>
      (ot1ofm_pad label S.sid S.entry_len learned).bind (fun pad =>
        (xor_bytes (S.ciphertexts.getD index []) pad).bind (fun pt =>
          if S.mode_int then
            if ¬ (1 ≤ os2ip pt ∧ os2ip pt < G.q) then
              .error "decrypted INT is out of expected Z_q^* range"
            else .ok (.int (os2ip pt))
          else .ok (.bytes pt))))

theorem mapM_ok_getD {α β : Type} (l : List α) (f : α → Except String β) (ys : List β)
    (h : l.mapM f = .ok ys) :
    ys.length = l.length ∧
      ∀ i, i < l.length → ∀ d dy, f (l.getD i d) = .ok (ys.getD i dy) := by
  induction l generalizing ys with
  | nil =>
    rw [List.mapM_nil] at h
    have hys : Except.ok ([] : List β) = Except.ok ys := h
    obtain rfl : ([] : List β) = ys := by injection hys
    exact ⟨rfl, fun i hi => absurd hi (by simp)⟩
  | cons a as ih =>
    rw [List.mapM_cons] at h
    cases hfa : f a with
    | error e =>
      rw [hfa, bind_error_eq] at h
      exact Except.noConfusion h
    | ok y =>
      rw [hfa, bind_ok_eq] at h
      cases has : as.mapM f with
      | error e =>
        rw [has, bind_error_eq] at h
        exact Except.noConfusion h
      | ok ys2 =>
        rw [has, bind_ok_eq] at h
        have h2 : Except.ok (y :: ys2) = Except.ok ys := h
        obtain rfl : y :: ys2 = ys := by injection h2
        obtain ⟨ihlen, ihp⟩ := ih ys2 has
        refine ⟨by simp [ihlen], ?_⟩
        intro i hi d dy
        cases i with
        | zero => rw [List.getD_cons_zero, List.getD_cons_zero]; exact hfa
        | succ i =>
          rw [List.getD_cons_succ, List.getD_cons_succ]
          exact ihp i (by simpa using hi) d dy

theorem ot1ofm_encode_int_length (q qb : Nat) (v : OTValue) (bs : Bytes)
    (h : ot1ofm_encode_int q qb v = .ok bs) : bs.length = qb := by
  cases v with
  | int x =>
    rw [ot1ofm_encode_int] at h
    by_cases hx : 1 ≤ x ∧ x < q
    · rw [if_pos hx] at h
      obtain rfl : i2osp x qb = bs := by injection h
      exact i2osp_length x qb
    · rw [if_neg hx] at h
      exact Except.noConfusion h
  | bytes b => exact Except.noConfusion h

theorem ot1ofm_check_bytes_length (el : Nat) (v : OTValue) (bs : Bytes)
    (h : ot1ofm_check_bytes el v = .ok bs) : bs.length = el := by
  cases v with
  | bytes b =>
    rw [ot1ofm_check_bytes] at h
    by_cases hb : b.length = el
    · rw [if_pos hb] at h
      obtain rfl : b = bs := by injection h
      exact hb
    · rw [if_neg hb] at h
      exact Except.noConfusion h
  | int x => exact Except.noConfusion h

theorem ot1ofm_pad_go_ok (label sid : Bytes) (entry_len : Nat) (seeds : List Bytes)
    (h : ∀ s ∈ seeds, s ≠ []) :
    ∀ j pad, pad.length = entry_len →
      ∃ p, ot1ofm_pad_go label sid entry_len j pad seeds = .ok p ∧ p.length = entry_len := by
  induction seeds with
  | nil => exact fun j pad hp => ⟨pad, rfl, hp⟩
  | cons s rest ih =>
    intro j pad hp
    have hs : ¬ s.length = 0 := by
      have hne := h s (by simp)
      simpa [List.length_eq_zero] using hne
    obtain ⟨p, hgo, hplen⟩ := ih (fun x hx => h x (by simp [hx])) (j + 1)
      (zipXor pad (hkdf_expand s (ot1ofm_info label j sid) entry_len))
      (by rw [zipXor_length, hkdf_expand_length, hp, Nat.min_self])
    refine ⟨p, ?_, hplen⟩
    simp only [ot1ofm_pad_go, prf_msg, if_neg hs, exbind_ok]
    exact hgo

theorem ot1ofm_pad_ok (label sid : Bytes) (entry_len : Nat) (seeds : List Bytes)
    (h : ∀ s ∈ seeds, s ≠ []) :
    ∃ p, ot1ofm_pad label sid entry_len seeds = .ok p ∧ p.length = entry_len :=
  ot1ofm_pad_go_ok label sid entry_len seeds h 0 (List.replicate entry_len 0)
    (List.length_replicate _ _)

theorem ot1ofm_learn_ok (G : DDHGroup) (hp : G.p.Prime) (hq0 : 0 < G.q)
    (hgq : G.g ^ G.q % G.p = 1) (hgnd : ¬ G.p ∣ G.g)
    (hfit : G.p ≤ 256 ^ ((bit_length G.q + 7) / 8))
    (S : OT1ofmSender) (aexps bexps : List Nat) (index : Nat)
    (hs0len : S.seed0.length = S.l) (hs1len : S.seed1.length = S.l)
    (hs0 : ∀ s ∈ S.seed0, s.length = SEED_LEN)
    (hs1 : ∀ s ∈ S.seed1, s.length = SEED_LEN)
    (hB : ∀ j, j < S.l →
      1 < ddh_generate_B G (G.g ^ aexps.getD j 0 % G.p) (bexps.getD j 0)
        (bit_at_lsb index j)) :
    ot1ofm_learn G S aexps bexps index = .ok (ot1ofm_seeds S.seed0 S.seed1 S.l index) := by
  rw [ot1ofm_learn, ot1ofm_seeds]
  apply mapM_ok_of_forall
  intro j hj
  rw [List.mem_range] at hj
  have hbit : bit_at_lsb index j < 2 := by
    have h1 : (index >>> j) &&& 1 ≤ 1 := Nat.and_le_right
    rw [bit_at_lsb]
    omega
  have hl0 : (S.seed0.getD j []).length = SEED_LEN :=
    hs0 _ (getD_mem_of_lt _ j [] (by rw [hs0len]; exact hj))
  have hl1 : (S.seed1.getD j []).length = SEED_LEN :=
    hs1 _ (getD_mem_of_lt _ j [] (by rw [hs1len]; exact hj))
  obtain ⟨c0, c1, hresp, hrec⟩ := ddh_ot_correct G hp hq0 hgq hgnd hfit (aexps.getD j 0)
    (bexps.getD j 0) (bit_at_lsb index j) hbit (S.seed0.getD j []) (S.seed1.getD j [])
    (by rw [hl0, hl1]) (hB j hj)
  simp only [hresp, exbind_ok, hrec]
  have hslen : (if bit_at_lsb index j = 0 then S.seed0.getD j []
      else S.seed1.getD j []).length = SEED_LEN := by
    by_cases hb : bit_at_lsb index j = 0
    · rw [if_pos hb]; exact hl0
    · rw [if_neg hb]; exact hl1
  rw [if_neg (not_not_intro hslen)]

theorem q_lt_pow_q_byte_len (q : Nat) : q < 256 ^ q_byte_len q := by
  have h1 := lt_two_pow_bit_length q
  have h2 : 2 ^ bit_length q ≤ 256 ^ q_byte_len q := by
    have h256 : (256 : Nat) ^ q_byte_len q = 2 ^ (8 * q_byte_len q) := by
      rw [show (256 : Nat) = 2 ^ 8 from rfl, ← Nat.pow_mul]
    rw [h256]
    exact Nat.pow_le_pow_right (by omega) (by rw [q_byte_len]; omega)
  omega

/-- With `ℓ = 0` (a single payload item), every pad is all-zero and the
ciphertext list coincides with the plaintext list. -/
theorem ot1ofm_l_zero_cts (label sid : Bytes) (el : Nat) (seed0 seed1 : List Bytes)
    (plain cts : List Bytes)
    (hplen : plain.length = 1) (hp0len : (plain.getD 0 []).length = el)
    (hcts : (List.range 1).mapM (ot1ofm_ct label sid el seed0 seed1 0 plain) = .ok cts) :
    cts = plain := by
  have hct0 : ot1ofm_ct label sid el seed0 seed1 0 plain 0 = .ok (plain.getD 0 []) := by
    rw [ot1ofm_ct,
      show ot1ofm_seeds seed0 seed1 0 0 = [] from rfl,
      show ot1ofm_pad label sid el [] = .ok (List.replicate el 0) from rfl]
    simp only [exbind_ok]
    rw [xor_bytes, if_neg (not_not_intro (by rw [hp0len, List.length_replicate])),
      zipXor_zero_right _ _ (le_of_eq hp0len)]
  rw [mapM_ok_of_forall (List.range 1) _ (fun t => plain.getD t [])
    (by intro t ht; rw [List.mem_range] at ht; interval_cases t; exact hct0)] at hcts
  have h2 : (List.range 1).map (fun t => plain.getD t []) = cts := by injection hcts
  obtain ⟨p0, hp0⟩ := List.length_eq_one.mp hplen
  rw [← h2, hp0]
  rfl

/-- Generic decryption step of the chooser: with well-formed seeds and the
ciphertext at `index` produced by the sender from plaintext `pt`, the
chooser reconstructs the pad, recovers `pt` and post-processes it
according to the mode. -/
theorem ot1ofm_choose_pt (G : DDHGroup) (hp : G.p.Prime) (hq0 : 0 < G.q)
    (hgq : G.g ^ G.q % G.p = 1) (hgnd : ¬ G.p ∣ G.g)
    (hfit : G.p ≤ 256 ^ ((bit_length G.q + 7) / 8))
    (S : OT1ofmSender) (label : Bytes) (aexps bexps : List Nat) (index : Nat)
    (hm : index < S.m)
    (hs0len : S.seed0.length = S.l) (hs1len : S.seed1.length = S.l)
    (hs0 : ∀ s ∈ S.seed0, s.length = SEED_LEN)
    (hs1 : ∀ s ∈ S.seed1, s.length = SEED_LEN)
    (hB : ∀ j, j < S.l →
      1 < ddh_generate_B G (G.g ^ aexps.getD j 0 % G.p) (bexps.getD j 0)
        (bit_at_lsb index j))
    (pt : Bytes) (hptlen : pt.length = S.entry_len)
    (hct : ot1ofm_ct label S.sid S.entry_len S.seed0 S.seed1 S.l S.plain index
      = .ok (S.ciphertexts.getD index []))
    (hpt : S.plain.getD index [] = pt) :
    ot1ofm_choose G label S aexps bexps index =
      (if S.mode_int then
        if ¬ (1 ≤ os2ip pt ∧ os2ip pt < G.q) then
          .error "decrypted INT is out of expected Z_q^* range"
        else .ok (.int (os2ip pt))
      else .ok (.bytes pt)) := by
  have hseeds_ne : ∀ s ∈ ot1ofm_seeds S.seed0 S.seed1 S.l index, s ≠ [] := by
    intro s hs
    rw [ot1ofm_seeds, List.mem_map] at hs
    obtain ⟨j, hjmem, rfl⟩ := hs
    rw [List.mem_range] at hjmem
    by_cases hb : bit_at_lsb index j = 0
    · rw [if_pos hb]
      intro hnil
      have h32 := hs0 _ (getD_mem_of_lt _ j [] (by rw [hs0len]; exact hjmem))
      rw [hnil] at h32
      simp [SEED_LEN] at h32
    · rw [if_neg hb]
      intro hnil
      have h32 := hs1 _ (getD_mem_of_lt _ j [] (by rw [hs1len]; exact hjmem))
      rw [hnil] at h32
      simp [SEED_LEN] at h32
  obtain ⟨padI, hpad, hpadlen⟩ := ot1ofm_pad_ok label S.sid S.entry_len _ hseeds_ne
  rw [ot1ofm_ct, hpad] at hct
  simp only [exbind_ok] at hct
  rw [hpt, xor_bytes, if_neg (not_not_intro (by rw [hptlen, hpadlen]))] at hct
  have hctv : S.ciphertexts.getD index [] = zipXor pt padI := by
    injection hct with h2
    exact h2.symm
  rw [ot1ofm_choose, if_neg (not_not_intro hm),
    ot1ofm_learn_ok G hp hq0 hgq hgnd hfit S aexps bexps index hs0len hs1len hs0 hs1 hB]
  simp only [exbind_ok]
  rw [hpad]
  simp only [exbind_ok]
  rw [hctv, xor_bytes,
    if_neg (not_not_intro (by rw [zipXor_length, hptlen, hpadlen, Nat.min_self])),
    zipXor_self_cancel pt padI (by rw [hptlen, hpadlen])]
  simp only [exbind_ok]

/-- C2 (amended): over a valid prime-order DDH group whose modulus fits
the base-OT key width — `p ≤ 256 ^ ceil(q.bit_length()/8)`, as when `p`
and `q` have the same byte length (safe-prime groups); otherwise the
base OT's `K.to_bytes` overflows, see the counterexample — the chooser
produced by `make_chooser` for an `OT1ofmSender` whose construction
succeeded on the given payload returns exactly `payload[index]` — an
`int` in `[1, q-1]` in INT mode, `bytes` of the fixed entry length in
BYTES mode — and for `m = 1` the bit count `ℓ` is `0`, the base 1-of-2
OT loop runs zero sessions, and the stored ciphertexts equal the
plaintexts (all-zero pad).  The sampled randomness (per-bit seed pairs,
`sid`, per-session exponents) is passed in as parameters; each base-OT
receiver key `B` is assumed to pass the sender's `1 < B` validation. -/
theorem c2_ot1ofm_chooser_returns_payload
    (G : DDHGroup) (hp : G.p.Prime) (hq0 : 0 < G.q)
    (hgq : G.g ^ G.q % G.p = 1) (hgnd : ¬ G.p ∣ G.g)
    (hfit : G.p ≤ 256 ^ ((bit_length G.q + 7) / 8))
    (payload : List OTValue) (label sid : Bytes) (seed0 seed1 : List Bytes)
    (S : OT1ofmSender)
    (hinit : ot1ofm_init G payload label sid seed0 seed1 = .ok S)
    (hs0len : seed0.length = bit_length (payload.length - 1))
    (hs1len : seed1.length = bit_length (payload.length - 1))
    (hs0 : ∀ s ∈ seed0, s.length = SEED_LEN)
    (hs1 : ∀ s ∈ seed1, s.length = SEED_LEN)
    (aexps bexps : List Nat) (index : Nat) (hidx : index < payload.length)
    (hB : ∀ j, j < bit_length (payload.length - 1) →
      1 < ddh_generate_B G (G.g ^ aexps.getD j 0 % G.p) (bexps.getD j 0)
        (bit_at_lsb index j)) :
    ot1ofm_choose G label S aexps bexps index = .ok (payload.getD index (.int 0))
    ∧ (payload.length = 1 →
        S.l = 0 ∧ ot1ofm_learn G S aexps bexps index = .ok []
          ∧ S.ciphertexts = S.plain) := by
  cases payload with
  | nil => exact absurd hidx (by simp)
  | cons first rest =>
    cases first with
    | int x0 =>
      simp only [ot1ofm_init] at hinit
      cases hplain : (OTValue.int x0 :: rest).mapM
          (ot1ofm_encode_int G.q (q_byte_len G.q)) with
      | error e =>
        rw [hplain, exbind_error] at hinit
        exact Except.noConfusion hinit
      | ok plain =>
        rw [hplain] at hinit
        simp only [exbind_ok] at hinit
        cases hcts : (List.range (OTValue.int x0 :: rest).length).mapM
            (ot1ofm_ct label sid (q_byte_len G.q) seed0 seed1
              (bit_length ((OTValue.int x0 :: rest).length - 1)) plain) with
        | error e =>
          rw [hcts, exmap_error] at hinit
          exact Except.noConfusion hinit
        | ok cts =>
          rw [hcts, exmap_ok] at hinit
          have hS : (⟨true, q_byte_len G.q, (OTValue.int x0 :: rest).length,
              bit_length ((OTValue.int x0 :: rest).length - 1), plain, seed0, seed1,
              sid, label, cts⟩ : OT1ofmSender) = S := by injection hinit
          have hmode : S.mode_int = true := by rw [← hS]
          have hentry : S.entry_len = q_byte_len G.q := by rw [← hS]
          have hm_eq : S.m = (OTValue.int x0 :: rest).length := by rw [← hS]
          have hl : S.l = bit_length ((OTValue.int x0 :: rest).length - 1) := by rw [← hS]
          have hplain_eq : S.plain = plain := by rw [← hS]
          have hseed0 : S.seed0 = seed0 := by rw [← hS]
          have hseed1 : S.seed1 = seed1 := by rw [← hS]
          have hsid : S.sid = sid := by rw [← hS]
          have hcts_eq : S.ciphertexts = cts := by rw [← hS]
          obtain ⟨hplen, hpelem⟩ := mapM_ok_getD _ _ _ hplain
          obtain ⟨hctslen, hctelem⟩ := mapM_ok_getD _ _ _ hcts
          have hidx_r : index < (List.range (OTValue.int x0 :: rest).length).length := by
            rw [List.length_range]; exact hidx
          have hct_index := hctelem index hidx_r 0 []
          rw [getD_eq_getElem_of_lt _ _ _ hidx_r, List.getElem_range] at hct_index
          have hpt := hpelem index hidx (.int 0) []
          rcases hv : (OTValue.int x0 :: rest).getD index (.int 0) with x | bs
          · rw [hv] at hpt
            simp only [ot1ofm_encode_int] at hpt
            by_cases hxr : 1 ≤ x ∧ x < G.q
            · rw [if_pos hxr] at hpt
              have hptv : plain.getD index [] = i2osp x (q_byte_len G.q) := by
                injection hpt with h2
                exact h2.symm
              have hmain := ot1ofm_choose_pt G hp hq0 hgq hgnd hfit S label aexps bexps index
                (by rw [hm_eq]; exact hidx)
                (by rw [hseed0, hl]; exact hs0len)
                (by rw [hseed1, hl]; exact hs1len)
                (by rw [hseed0]; exact hs0)
                (by rw [hseed1]; exact hs1)
                (by rw [hl]; exact hB)
                (i2osp x (q_byte_len G.q))
                (by rw [i2osp_length, hentry])
                (by rw [hsid, hentry, hseed0, hseed1, hl, hplain_eq, hcts_eq]
                    exact hct_index)
                (by rw [hplain_eq]; exact hptv)
              have hos : os2ip (i2osp x (q_byte_len G.q)) = x :=
                os2ip_i2osp _ _ (Nat.lt_trans hxr.2 (q_lt_pow_q_byte_len G.q))
              refine ⟨?_, ?_⟩
              · rw [hmain, hmode, if_pos rfl, hos, if_neg (not_not_intro hxr)]
              · intro hm1
                have hrest : rest = [] := List.length_eq_zero.mp (by simpa using hm1)
                subst hrest
                have hSl : S.l = 0 := by rw [hl]; rfl
                refine ⟨hSl, ?_, ?_⟩
                · rw [ot1ofm_learn, hSl]
                  rfl
                · rw [hcts_eq, hplain_eq]
                  have hp0len : (plain.getD 0 []).length = q_byte_len G.q :=
                    ot1ofm_encode_int_length _ _ _ _ (hpelem 0 (by simp) (.int 0) [])
                  have hcts1 : (List.range 1).mapM
                      (ot1ofm_ct label sid (q_byte_len G.q) seed0 seed1 0 plain)
                      = .ok cts := hcts
                  exact ot1ofm_l_zero_cts label sid (q_byte_len G.q) seed0 seed1
                    plain cts hplen hp0len hcts1
            · rw [if_neg hxr] at hpt
              exact Except.noConfusion hpt
          · rw [hv] at hpt
            simp only [ot1ofm_encode_int] at hpt
            exact Except.noConfusion hpt
    | bytes b0 =>
      simp only [ot1ofm_init] at hinit
      by_cases hb0 : b0.length = 0
      · rw [if_pos hb0] at hinit
        exact Except.noConfusion hinit
      · rw [if_neg hb0] at hinit
        cases hplain : (OTValue.bytes b0 :: rest).mapM (ot1ofm_check_bytes b0.length) with
        | error e =>
          rw [hplain, exbind_error] at hinit
          exact Except.noConfusion hinit
        | ok plain =>
          rw [hplain] at hinit
          simp only [exbind_ok] at hinit
          cases hcts : (List.range (OTValue.bytes b0 :: rest).length).mapM
              (ot1ofm_ct label sid b0.length seed0 seed1
                (bit_length ((OTValue.bytes b0 :: rest).length - 1)) plain) with
          | error e =>
            rw [hcts, exmap_error] at hinit
            exact Except.noConfusion hinit
          | ok cts =>
            rw [hcts, exmap_ok] at hinit
            have hS : (⟨false, b0.length, (OTValue.bytes b0 :: rest).length,
                bit_length ((OTValue.bytes b0 :: rest).length - 1), plain, seed0, seed1,
                sid, label, cts⟩ : OT1ofmSender) = S := by injection hinit
            have hmode : S.mode_int = false := by rw [← hS]
            have hentry : S.entry_len = b0.length := by rw [← hS]
            have hm_eq : S.m = (OTValue.bytes b0 :: rest).length := by rw [← hS]
            have hl : S.l = bit_length ((OTValue.bytes b0 :: rest).length - 1) := by
              rw [← hS]
            have hplain_eq : S.plain = plain := by rw [← hS]
            have hseed0 : S.seed0 = seed0 := by rw [← hS]
            have hseed1 : S.seed1 = seed1 := by rw [← hS]
            have hsid : S.sid = sid := by rw [← hS]
            have hcts_eq : S.ciphertexts = cts := by rw [← hS]
            obtain ⟨hplen, hpelem⟩ := mapM_ok_getD _ _ _ hplain
            obtain ⟨hctslen, hctelem⟩ := mapM_ok_getD _ _ _ hcts
            have hidx_r : index < (List.range (OTValue.bytes b0 :: rest).length).length := by
              rw [List.length_range]; exact hidx
            have hct_index := hctelem index hidx_r 0 []
            rw [getD_eq_getElem_of_lt _ _ _ hidx_r, List.getElem_range] at hct_index
            have hpt := hpelem index hidx (.int 0) []
            rcases hv : (OTValue.bytes b0 :: rest).getD index (.int 0) with x | bs
            · rw [hv] at hpt
              simp only [ot1ofm_check_bytes] at hpt
              exact Except.noConfusion hpt
            · rw [hv] at hpt
              simp only [ot1ofm_check_bytes] at hpt
              by_cases hbl : bs.length = b0.length
              · rw [if_pos hbl] at hpt
                have hptv : plain.getD index [] = bs := by
                  injection hpt with h2
                  exact h2.symm
                have hmain := ot1ofm_choose_pt G hp hq0 hgq hgnd hfit S label aexps bexps
                  index
                  (by rw [hm_eq]; exact hidx)
                  (by rw [hseed0, hl]; exact hs0len)
                  (by rw [hseed1, hl]; exact hs1len)
                  (by rw [hseed0]; exact hs0)
                  (by rw [hseed1]; exact hs1)
                  (by rw [hl]; exact hB)
                  bs
                  (by rw [hentry]; exact hbl)
                  (by rw [hsid, hentry, hseed0, hseed1, hl, hplain_eq, hcts_eq]
                      exact hct_index)
                  (by rw [hplain_eq]; exact hptv)
                refine ⟨?_, ?_⟩
                · rw [hmain, hmode, if_neg Bool.false_ne_true]
                · intro hm1
                  have hrest : rest = [] := List.length_eq_zero.mp (by simpa using hm1)
                  subst hrest
                  have hSl : S.l = 0 := by rw [hl]; rfl
                  refine ⟨hSl, ?_, ?_⟩
                  · rw [ot1ofm_learn, hSl]
                    rfl
                  · rw [hcts_eq, hplain_eq]
                    have hp0len : (plain.getD 0 []).length = b0.length :=
                      ot1ofm_check_bytes_length _ _ _ (hpelem 0 (by simp) (.int 0) [])
                    have hcts1 : (List.range 1).mapM
                        (ot1ofm_ct label sid b0.length seed0 seed1 0 plain)
                        = .ok cts := hcts
                    exact ot1ofm_l_zero_cts label sid b0.length seed0 seed1
                      plain cts hplen hp0len hcts1
              · rw [if_neg hbl] at hpt
                exact Except.noConfusion hpt

/-- A small prime-order DDH group for concrete evaluation: `p = 23`,
`q = 11`, `g = 4` (and `4^11 ≡ 1 (mod 23)`). -/
def G_wit : DDHGroup := ⟨23, 11, 4⟩

def payload_wit : List OTValue := [.int 2, .int 5]

def seed0_wit : List Bytes := [List.replicate 32 1]

def seed1_wit : List Bytes := [List.replicate 32 2]

/-- The sender state built by `ot1ofm_init` on the concrete inputs. -/
def S_wit : OT1ofmSender :=
  (ot1ofm_init G_wit payload_wit [] [] seed0_wit seed1_wit).toOption.getD
    ⟨false, 0, 0, 0, [], [], [], [], [], []⟩

set_option maxRecDepth 100000 in
theorem c2_ot1ofm_chooser_returns_payload_witness :
    ot1ofm_choose G_wit [] S_wit [2] [3] 1 = .ok (payload_wit.getD 1 (.int 0))
    ∧ (payload_wit.length = 1 →
        S_wit.l = 0 ∧ ot1ofm_learn G_wit S_wit [2] [3] 1 = .ok []
          ∧ S_wit.ciphertexts = S_wit.plain) :=
  c2_ot1ofm_chooser_returns_payload G_wit (by show Nat.Prime 23; norm_num) (by decide)
    (by decide) (by decide) (by decide) payload_wit [] [] seed0_wit seed1_wit S_wit (by rfl)
    (by decide) (by decide) (by decide) (by decide)
    [2] [3] 1 (by decide) (by decide)

/-- A valid DDH group of the textbook small-subgroup shape: `p = 307`,
`q = 17`, `g = 273 = 2^((p-1)/q) mod p` of order `17`.  Here
`ceil(q.bit_length()/8) = 1` but `p > 256`, so shared keys need not fit
one byte. -/
def G_bad : DDHGroup := ⟨307, 17, 273⟩

/-- The sender state `ot1ofm_init` builds over `G_bad` (the group is not
consulted beyond `q_byte_len`, so construction succeeds). -/
def S_bad : OT1ofmSender :=
  (ot1ofm_init G_bad payload_wit [] [] seed0_wit seed1_wit).toOption.getD
    ⟨false, 0, 0, 0, [], [], [], [], [], []⟩

set_option maxRecDepth 100000 in
/-- Counterexample to C2 as frozen ("for every valid prime-order DDH
group ... the chooser returns exactly `payload[i]`"): `(307, 17, 273)` is
a valid prime-order group and the payload, seeds and index are valid, yet
the base OT derives the shared key `K_0 = 299`, `K_0.to_bytes(1, "big")`
raises `OverflowError`, and the chooser fails instead of returning
`payload[1]`.  The amended claim excludes such groups via
`p ≤ 256 ^ ceil(q.bit_length()/8)`, which `G_bad` violates. -/
theorem c2_counterexample_small_subgroup_overflow :
    Nat.Prime G_bad.p ∧ 0 < G_bad.q ∧ G_bad.g ^ G_bad.q % G_bad.p = 1
    ∧ ¬ G_bad.p ∣ G_bad.g
    ∧ ¬ G_bad.p ≤ 256 ^ ((bit_length G_bad.q + 7) / 8)
    ∧ ot1ofm_init G_bad payload_wit [] [] seed0_wit seed1_wit = .ok S_bad
    ∧ ot1ofm_choose G_bad [] S_bad [1] [2] 1 = .error "int too big to convert" :=
  ⟨by show Nat.Prime 307; norm_num, by decide, by decide, by decide, by decide,
    by rfl, by rfl⟩

end ZIDS
